import Mathlib

/-!
Verification of the pmaudit audit engine (`src/pmaudit/pmauditor.py`).

The development shallowly embeds the engine: `os.stat` results, the
`os.walk` file streams of `PMAudit.start` and `PMAudit.finish`, the
relatime priming step, the reference-file resolution, the classification
loop, and the custom JSON writer `dump_json` together with a standard
JSON reader.  Filesystem enumeration is modelled as a list of `FSEntry`
values (the files yielded by `os.walk` after directory pruning), and the
`fnmatch` tests against the configured glob patterns are modelled as the
Boolean predicates they induce on file names.
-/

namespace PMAudit

/-- Nanoseconds per second, `NANOS = 10 ** 9` in the source. -/
def NANOS : Int := 10 ^ 9

/-- Priming margin, `DELTA = 24 * 60 * 60 * NANOS` in the source. -/
def DELTA : Int := 24 * 60 * 60 * NANOS

/-- Result of an `os.stat` call: mode bits, nanosecond timestamps, size. -/
structure Stats where
  st_mode : Nat
  st_atime_ns : Int
  st_mtime_ns : Int
  st_size : Int
deriving Repr, DecidableEq

/-- Python `stat.S_ISLNK`: the file-type bits equal `0o120000`. -/
def S_ISLNK (mode : Nat) : Bool := mode &&& 0o170000 == 0o120000

/-- One file name yielded by the `os.walk` loops of `start`/`finish`
(after directory pruning), with `path = op.relpath(op.join(parent, fname))`.
`isLink` records whether the directory entry itself is a symbolic link.
`target` is the result of `os.stat path`: since `os.stat` follows
symbolic links, for a link this holds the stats of the link target (whose
mode is the target's mode, never a link mode); `none` models `os.stat`
raising `FileNotFoundError` because the file vanished between the walk
listing and the stat call (or the link is broken). -/
structure FSEntry where
  path : String
  isLink : Bool
  target : Option Stats
deriving Repr, DecidableEq

/-- Python `os.path.basename`: the part of the path after the last slash. -/
def basename (s : String) : String :=
  String.mk (((s.data.reverse).takeWhile (fun c => c ≠ '/')).reverse)

/-- Python `dict.get`: find the value stored under a key (first match). -/
def alookup {α : Type} (k : String) : List (String × α) → Option α
  | [] => none
  | (k', v) :: t => if k' = k then some v else alookup k t

/-- Python `dict` assignment `d[k] = v`: replace in place or append. -/
def dinsert {α : Type} (k : String) (v : α) : List (String × α) → List (String × α)
  | [] => [(k, v)]
  | (k', v') :: t => if k' = k then (k, v) :: t else (k', v') :: dinsert k v t

/-- One value of `self.pre_state`: the `atime`/`mtime`/`size`/`needflush`
dict built at lines 273-278 of the source. -/
structure PreData where
  atime : Int
  mtime : Int
  size : Int
  needflush : Bool
deriving Repr, DecidableEq

/-- One value of `self.post_state`: the `atime`/`mtime`/`size` dict built
at lines 315-319 of the source. -/
structure PostData where
  atime : Int
  mtime : Int
  size : Int
deriving Repr, DecidableEq

/-- One categorized record (`nstate` in the source): pre/post pairs for
atime, mtime and size; the pre side of `size` is `none` (JSON `null`) for
files that did not exist before the run. -/
structure NState where
  atime : Int × Int
  mtime : Int × Int
  size : Option Int × Option Int
deriving Repr, DecidableEq

/-- The four category mappings built by `finish` (`self.prereqs`,
`self.intermediates`, `self.finals`, `self.unused`), in insertion order. -/
structure Classification where
  prereqs : List (String × NState)
  intermediates : List (String × NState)
  finals : List (String × NState)
  unused : List (String × NState)
deriving Repr, DecidableEq

/-- Paths of all four category mappings of a classification, concatenated. -/
def allPaths (c : Classification) : List String :=
  (c.prereqs ++ c.intermediates ++ c.finals ++ c.unused).map Prod.fst

/-- The four destinations a post-state path can be assigned to. -/
inductive Bucket where
  | prereq
  | intermediate
  | final
  | unusedCat
deriving Repr, DecidableEq

/-- The decision tree of the categorization loop of `finish` (source lines
339-401) for one post-state item: chooses the destination dict and builds
the recorded `nstate`.  `lastSize` models the stale local variable `stats`
of `finish`, which after the post-run walk still holds the stat result of
the *last* file visited by that walk; the source reads `stats.st_size`
inside this loop instead of the stored `state[SIZE]`. -/
def classifyOne (pre : List (String × PreData)) (reftime lastSize : Int)
    (path : String) (d : PostData) : Bucket × NState :=
  match alookup path pre with
  | none =>
    let nstate : NState := ⟨(-2, d.atime), (-1, d.mtime), (none, some lastSize)⟩
    if d.mtime ≤ reftime then (.prereq, nstate)
    else if d.mtime < d.atime then (.intermediate, nstate)
    else if d.mtime > d.atime then (.intermediate, nstate)
    else (.final, nstate)
  | some p =>
    if d.atime > p.atime then
      let nstate : NState :=
        ⟨(p.atime, d.atime), (p.mtime, d.mtime), (some p.size, some lastSize)⟩
      if d.mtime > p.mtime then
        if d.mtime > d.atime then (.final, nstate) else (.intermediate, nstate)
      else (.prereq, nstate)
    else if d.mtime > p.mtime then
      (.final, ⟨(p.atime, d.atime), (p.mtime, d.mtime), (some p.size, some lastSize)⟩)
    else
      (.unusedCat, ⟨(p.atime, 0), (p.mtime, 0), (some p.size, some p.size)⟩)

/-- Record one categorized path in its destination mapping. -/
def addCat (c : Classification) (path : String) (bn : Bucket × NState) : Classification :=
  match bn.1 with
  | .prereq => { c with prereqs := (path, bn.2) :: c.prereqs }
  | .intermediate => { c with intermediates := (path, bn.2) :: c.intermediates }
  | .final => { c with finals := (path, bn.2) :: c.finals }
  | .unusedCat => { c with unused := (path, bn.2) :: c.unused }

/-- The categorization loop of `finish` (source lines 339-401): walk the
post-state in iteration order, comparing each entry with the pre-state and
recording it in the chosen category mapping. -/
def classify (pre : List (String × PreData)) (reftime lastSize : Int) :
    List (String × PostData) → Classification
  | [] => ⟨[], [], [], []⟩
  | (path, d) :: rest =>
    addCat (classify pre reftime lastSize rest) path (classifyOne pre reftime lastSize path d)

/-- Accumulator step of the pre-run walk of `start` (source lines 256-278):
skip names matching an exclude pattern (before any stat), stat the path
(a vanished file raises), test `S_ISLNK` on the *followed* stat result,
then prime the atime when `atime >= mtime` (recording the `os.utime` call)
and store the pre-state entry.  Returns the pre-state dict and the list of
`os.utime (path, ns=(atime, mtime))` calls issued. -/
def startWalkAux (needflush : Bool) (excl : String → Bool)
    (acc : List (String × PreData) × List (String × Int × Int)) :
    List FSEntry → Except String (List (String × PreData) × List (String × Int × Int))
  | [] => .ok acc
  | e :: rest =>
    if excl (basename e.path) then startWalkAux needflush excl acc rest
    else
      match e.target with
      | none => .error ("stat failed: " ++ e.path)
      | some st =>
        if S_ISLNK st.st_mode then startWalkAux needflush excl acc rest
        else if st.st_atime_ns ≥ st.st_mtime_ns then
          startWalkAux needflush excl
            (dinsert e.path ⟨st.st_mtime_ns - DELTA, st.st_mtime_ns, st.st_size, needflush⟩ acc.1,
             acc.2 ++ [(e.path, st.st_mtime_ns - DELTA, st.st_mtime_ns)]) rest
        else
          startWalkAux needflush excl
            (dinsert e.path ⟨st.st_atime_ns, st.st_mtime_ns, st.st_size, needflush⟩ acc.1,
             acc.2) rest

/-- The pre-run walk of `start`, starting from empty state. -/
def startWalk (needflush : Bool) (excl : String → Bool) (entries : List FSEntry) :
    Except String (List (String × PreData) × List (String × Int × Int)) :=
  startWalkAux needflush excl ([], []) entries

/-- Check whether the first list starts the second. -/
def leadsWith : List Char → List Char → Bool
  | [], _ => true
  | _ :: _, [] => false
  | a :: as, b :: bs => a == b && leadsWith as bs

/-- Python substring containment `needle in hay`. -/
def containsSub (needle : List Char) : List Char → Bool
  | [] => needle.isEmpty
  | c :: t => leadsWith needle (c :: t) || containsSub needle t

/-- The parallel-build test at the top of `start` (source lines 221-223):
`MAKEFLAGS` is set, non-empty, and contains the substring `" -j"`. -/
def parallelDetected : Option String → Bool
  | none => false
  | some s => !s.isEmpty && containsSub " -j".data s.data

/-- `PMAudit.start` (source lines 207-282): raise `RuntimeError` when a
parallel make is detected, otherwise take and prime the pre-run snapshot.
The filesystem-quirk probe outcome is the `needflush` parameter. -/
def start (makeflags : Option String) (needflush : Bool) (excl : String → Bool)
    (entries : List FSEntry) :
    Except String (List (String × PreData) × List (String × Int × Int)) :=
  if parallelDetected makeflags then .error "not supported in -j mode"
  else startWalk needflush excl entries

/-- Accumulator step of the post-run walk of `finish` (source lines
302-324): skip excluded names, stat (a vanished file raises), remember the
stat result in the local `stats` variable, skip when `S_ISLNK` holds of the
followed stat, then divert the entry to `reffiles` when the ref-file
pattern matches its basename, else store it into `post_state`. -/
def postWalkAux (refMatch : Option (String → Bool)) (excl : String → Bool)
    (acc : List (String × PostData) × List (String × PostData) × Option Stats) :
    List FSEntry →
    Except String (List (String × PostData) × List (String × PostData) × Option Stats)
  | [] => .ok acc
  | e :: rest =>
    if excl (basename e.path) then postWalkAux refMatch excl acc rest
    else
      match e.target with
      | none => .error ("stat failed: " ++ e.path)
      | some st =>
        if S_ISLNK st.st_mode then postWalkAux refMatch excl (acc.1, acc.2.1, some st) rest
        else
          match refMatch with
          | some m =>
            if m (basename e.path) then
              postWalkAux refMatch excl
                (acc.1, acc.2.1 ++ [(e.path, ⟨st.st_atime_ns, st.st_mtime_ns, st.st_size⟩)],
                 some st) rest
            else
              postWalkAux refMatch excl
                (dinsert e.path ⟨st.st_atime_ns, st.st_mtime_ns, st.st_size⟩ acc.1,
                 acc.2.1, some st) rest
          | none =>
            postWalkAux refMatch excl
              (dinsert e.path ⟨st.st_atime_ns, st.st_mtime_ns, st.st_size⟩ acc.1,
               acc.2.1, some st) rest

/-- The post-run walk of `finish`, starting from empty state. -/
def postWalk (refMatch : Option (String → Bool)) (excl : String → Bool)
    (entries : List FSEntry) :
    Except String (List (String × PostData) × List (String × PostData) × Option Stats) :=
  postWalkAux refMatch excl ([], [], none) entries

/-- Reference-time resolution of `finish` (source lines 326-335): with a
ref-file pattern configured, more than one match or no match raises, and a
single match shifts the reference time to that file's post-run mtime. -/
def resolveReftime (refMatch : Option (String → Bool))
    (reffiles : List (String × PostData)) (reftime0 : Int) : Except String Int :=
  match refMatch with
  | none => .ok reftime0
  | some _ =>
    if reffiles.length > 1 then .error "multiple reffile matches"
    else
      match reffiles with
      | [] => .error "reffile not found"
      | rf :: _ => .ok rf.2.mtime

/-- Everything `finish` computes that the claims refer to: the post-run
snapshot, the diverted ref-file matches, the reference time actually used,
and the classification. -/
structure FinishResult where
  post_state : List (String × PostData)
  reffiles : List (String × PostData)
  reftime : Int
  cls : Classification
deriving Repr, DecidableEq

/-- `PMAudit.finish` (source lines 284-422): post-run walk, reference-time
resolution, then the categorization loop.  `reftime0` is `self.reftime` as
set by `start` (the start time); `pre` is `self.pre_state`. -/
def finish (pre : List (String × PreData)) (refMatch : Option (String → Bool))
    (excl : String → Bool) (reftime0 : Int) (entries : List FSEntry) :
    Except String FinishResult :=
  match postWalk refMatch excl entries with
  | .error e => .error e
  | .ok (post, reffiles, lastOpt) =>
    match resolveReftime refMatch reffiles reftime0 with
    | .error e => .error e
    | .ok reftime =>
      let lastSize := (lastOpt.map Stats.st_size).getD 0
      .ok ⟨post, reffiles, reftime, classify pre reftime lastSize post⟩

/-- The run driver of `main` (source lines 616-627): `audit.start(...)`,
then the subprocess calls, then `audit.finish(...)`.  The Boolean records
whether the audited command was started; `command` models the command's
effect on the watched tree.  When `start` raises, the command never runs. -/
def runAudit (makeflags : Option String) (needflush : Bool) (excl : String → Bool)
    (refMatch : Option (String → Bool)) (reftime0 : Int)
    (command : List FSEntry → List FSEntry) (entries : List FSEntry) :
    Bool × Except String FinishResult :=
  match start makeflags needflush excl entries with
  | .error e => (false, .error e)
  | .ok (pre, _) => (true, finish pre refMatch excl reftime0 (command entries))

/-! ### Association-list helper lemmas -/

theorem alookup_dinsert_self {α : Type} (k : String) (v : α) (l : List (String × α)) :
    alookup k (dinsert k v l) = some v := by
  induction l with
  | nil => simp [dinsert, alookup]
  | cons hd t ih =>
    obtain ⟨k', v'⟩ := hd
    by_cases h : k' = k
    · simp [dinsert, alookup, h]
    · simp [dinsert, alookup, h, ih]

theorem alookup_dinsert_ne {α : Type} (k k' : String) (v : α) (l : List (String × α))
    (h : k' ≠ k) : alookup k' (dinsert k v l) = alookup k' l := by
  induction l with
  | nil =>
    have hne : ¬k = k' := fun h' => h h'.symm
    simp [dinsert, alookup, hne]
  | cons hd t ih =>
    obtain ⟨k₀, v₀⟩ := hd
    by_cases h₀ : k₀ = k
    · subst h₀
      have hne : ¬k₀ = k' := fun h' => h h'.symm
      simp [dinsert, alookup, hne]
    · simp only [dinsert, if_neg h₀, alookup]
      by_cases h₁ : k₀ = k'
      · simp [h₁]
      · simp [h₁, ih]

theorem mem_keys_dinsert {α : Type} (p k : String) (v : α) (l : List (String × α)) :
    p ∈ (dinsert k v l).map Prod.fst ↔ p = k ∨ p ∈ l.map Prod.fst := by
  induction l with
  | nil => simp [dinsert, eq_comm]
  | cons hd t ih =>
    obtain ⟨k₀, v₀⟩ := hd
    by_cases h₀ : k₀ = k
    · subst h₀
      simp [dinsert, eq_comm]
    · simp only [dinsert, if_neg h₀, List.map_cons, List.mem_cons, ih]
      try tauto

theorem nodup_keys_dinsert {α : Type} (k : String) (v : α) (l : List (String × α))
    (h : (l.map Prod.fst).Nodup) : ((dinsert k v l).map Prod.fst).Nodup := by
  induction l with
  | nil => simp [dinsert]
  | cons hd t ih =>
    obtain ⟨k₀, v₀⟩ := hd
    simp only [List.map_cons, List.nodup_cons] at h
    by_cases h₀ : k₀ = k
    · subst h₀
      simpa [dinsert] using h
    · simp only [dinsert, if_neg h₀, List.map_cons, List.nodup_cons]
      refine ⟨fun hc => ?_, ih h.2⟩
      rcases (mem_keys_dinsert k₀ k v t).mp hc with h₁ | h₁
      · exact h₀ h₁
      · exact h.1 h₁

/-! ### Counting paths through the classification loop -/

theorem count_allPaths_addCat (c : Classification) (path : String)
    (bn : Bucket × NState) (p : String) :
    (allPaths (addCat c path bn)).count p =
      (allPaths c).count p + if path = p then 1 else 0 := by
  obtain ⟨b, ns⟩ := bn
  cases b <;>
    simp [addCat, allPaths, List.count_append, List.count_cons] <;> omega

theorem count_allPaths_classify (pre : List (String × PreData)) (rt ls : Int)
    (post : List (String × PostData)) (p : String) :
    (allPaths (classify pre rt ls post)).count p = (post.map Prod.fst).count p := by
  induction post with
  | nil => rfl
  | cons hd rest ih =>
    obtain ⟨path, d⟩ := hd
    simp [classify, count_allPaths_addCat, ih, List.count_cons]
    try omega

/-! ### Walk invariants -/

theorem postWalkAux_nodup (refMatch : Option (String → Bool)) (excl : String → Bool)
    (entries : List FSEntry) :
    ∀ acc res, postWalkAux refMatch excl acc entries = .ok res →
      (acc.1.map Prod.fst).Nodup → (res.1.map Prod.fst).Nodup := by
  induction entries with
  | nil =>
    intro acc res h hacc
    simp only [postWalkAux] at h
    cases h
    exact hacc
  | cons e rest ih =>
    intro acc res h hacc
    simp only [postWalkAux] at h
    split at h
    · exact ih acc res h hacc
    · cases htgt : e.target with
      | none => rw [htgt] at h; cases h
      | some st =>
        rw [htgt] at h
        simp only at h
        split at h
        · exact ih _ res h hacc
        · cases refMatch with
          | some m =>
            simp only at h
            split at h
            · exact ih _ res h hacc
            · exact ih _ res h (nodup_keys_dinsert _ _ _ hacc)
          | none =>
            exact ih _ res h (nodup_keys_dinsert _ _ _ hacc)

theorem postWalkAux_not_ref (m : String → Bool) (excl : String → Bool)
    (entries : List FSEntry) :
    ∀ acc res, postWalkAux (some m) excl acc entries = .ok res →
      (∀ q ∈ acc.1.map Prod.fst, m (basename q) = false) →
      ∀ q ∈ res.1.map Prod.fst, m (basename q) = false := by
  induction entries with
  | nil =>
    intro acc res h hacc
    simp only [postWalkAux] at h
    cases h
    exact hacc
  | cons e rest ih =>
    intro acc res h hacc
    simp only [postWalkAux] at h
    split at h
    · exact ih acc res h hacc
    · cases htgt : e.target with
      | none => rw [htgt] at h; cases h
      | some st =>
        rw [htgt] at h
        simp only at h
        split at h
        · exact ih _ res h hacc
        · split at h
          · exact ih _ res h hacc
          · rename_i hm
            refine ih _ res h ?_
            intro q hq
            rcases (mem_keys_dinsert q e.path _ acc.1).mp hq with hq₁ | hq₁
            · subst hq₁
              simpa using hm
            · exact hacc q hq₁

/-- The ref-file matches collected by the post-run walk of `finish`
(source lines 320-322): the walked files whose basename matches the
ref-file pattern, in walk order. -/
def refMatches (m : String → Bool) (excl : String → Bool) : List FSEntry → List (String × PostData)
  | [] => []
  | e :: rest =>
    if excl (basename e.path) then refMatches m excl rest
    else
      match e.target with
      | none => refMatches m excl rest
      | some st =>
        if S_ISLNK st.st_mode then refMatches m excl rest
        else if m (basename e.path) then
          (e.path, ⟨st.st_atime_ns, st.st_mtime_ns, st.st_size⟩) :: refMatches m excl rest
        else refMatches m excl rest

theorem postWalkAux_refMatches (m : String → Bool) (excl : String → Bool) :
    ∀ (entries : List FSEntry) (acc : List (String × PostData) × List (String × PostData) × Option Stats),
      (∀ e ∈ entries, excl (basename e.path) = false → e.target ≠ none) →
      ∃ post lastOpt, postWalkAux (some m) excl acc entries =
        .ok (post, acc.2.1 ++ refMatches m excl entries, lastOpt) := by
  intro entries
  induction entries with
  | nil =>
    intro acc _
    exact ⟨acc.1, acc.2.2, by simp [postWalkAux, refMatches]⟩
  | cons e rest ih =>
    intro acc hstat
    cases hex : excl (basename e.path) with
    | true =>
      simp only [postWalkAux, refMatches, hex, if_true]
      exact ih acc fun x hx => hstat x (List.mem_cons_of_mem e hx)
    | false =>
      have htgt := hstat e (List.mem_cons_self e rest) hex
      cases he : e.target with
      | none => exact absurd he htgt
      | some st =>
        simp only [postWalkAux, refMatches, hex, he, Bool.false_eq_true, if_false]
        cases hlnk : S_ISLNK st.st_mode with
        | true =>
          simp only [if_true]
          exact ih _ fun x hx => hstat x (List.mem_cons_of_mem e hx)
        | false =>
          simp only [Bool.false_eq_true, if_false]
          cases hm : m (basename e.path) with
          | true =>
            simp only [if_true]
            obtain ⟨post, lastOpt, hrec⟩ :=
              ih (acc.1, acc.2.1 ++ [(e.path, ⟨st.st_atime_ns, st.st_mtime_ns, st.st_size⟩)],
                  some st) (fun x hx => hstat x (List.mem_cons_of_mem e hx))
            refine ⟨post, lastOpt, ?_⟩
            rw [hrec]
            simp
          | false =>
            simp only [Bool.false_eq_true, if_false]
            exact ih _ fun x hx => hstat x (List.mem_cons_of_mem e hx)

theorem postWalkAux_error (refMatch : Option (String → Bool)) (excl : String → Bool)
    (entries : List FSEntry) (e : FSEntry) (he : e ∈ entries)
    (hexcl : excl (basename e.path) = false) (hnone : e.target = none) :
    ∀ acc, ∃ msg, postWalkAux refMatch excl acc entries = .error msg := by
  induction entries with
  | nil => cases he
  | cons x rest ih =>
    intro acc
    rcases List.mem_cons.mp he with rfl | he'
    · refine ⟨"stat failed: " ++ e.path, ?_⟩
      simp [postWalkAux, hexcl, hnone]
    · cases hex : excl (basename x.path) with
      | true =>
        simpa [postWalkAux, hex] using ih he' acc
      | false =>
        cases hx : x.target with
        | none => exact ⟨"stat failed: " ++ x.path, by simp [postWalkAux, hex, hx]⟩
        | some st =>
          cases hlnk : S_ISLNK st.st_mode with
          | true =>
            simpa [postWalkAux, hex, hx, hlnk] using ih he' _
          | false =>
            cases refMatch with
            | some m =>
              cases hm : m (basename x.path) with
              | true => simpa [postWalkAux, hex, hx, hlnk, hm] using ih he' _
              | false => simpa [postWalkAux, hex, hx, hlnk, hm] using ih he' _
            | none =>
              simpa [postWalkAux, hex, hx, hlnk] using ih he' _

theorem finish_ok_elim (pre : List (String × PreData)) (refMatch : Option (String → Bool))
    (excl : String → Bool) (rt0 : Int) (entries : List FSEntry) (r : FinishResult)
    (h : finish pre refMatch excl rt0 entries = .ok r) :
    ∃ lastOpt, postWalk refMatch excl entries = .ok (r.post_state, r.reffiles, lastOpt) ∧
      resolveReftime refMatch r.reffiles rt0 = .ok r.reftime ∧
      r.cls = classify pre r.reftime ((lastOpt.map Stats.st_size).getD 0) r.post_state := by
  unfold finish at h
  cases hpw : postWalk refMatch excl entries with
  | error e => rw [hpw] at h; cases h
  | ok trip =>
    rw [hpw] at h
    obtain ⟨post, reffiles, lastOpt⟩ := trip
    simp only at h
    cases hrt : resolveReftime refMatch reffiles rt0 with
    | error e => rw [hrt] at h; cases h
    | ok rt =>
      rw [hrt] at h
      simp only at h
      cases h
      exact ⟨lastOpt, rfl, hrt, rfl⟩

theorem startWalkAux_preserve (needflush : Bool) (excl : String → Bool) (p : String) :
    ∀ (entries : List FSEntry), (∀ x ∈ entries, x.path ≠ p) →
      ∀ acc pre ut, startWalkAux needflush excl acc entries = .ok (pre, ut) →
        alookup p pre = alookup p acc.1 ∧
        ∀ a m', ((p, a, m') ∈ ut ↔ (p, a, m') ∈ acc.2) := by
  intro entries
  induction entries with
  | nil =>
    intro _ acc pre ut h
    simp only [startWalkAux] at h
    cases h
    exact ⟨rfl, fun a m' => Iff.rfl⟩
  | cons x rest ih =>
    intro hne acc pre ut h
    have hxp : x.path ≠ p := hne x (List.mem_cons_self x rest)
    have hpx : p ≠ x.path := Ne.symm hxp
    have hrest : ∀ y ∈ rest, y.path ≠ p := fun y hy => hne y (List.mem_cons_of_mem x hy)
    simp only [startWalkAux] at h
    split at h
    · exact ih hrest acc pre ut h
    · cases hx : x.target with
      | none => rw [hx] at h; cases h
      | some st =>
        rw [hx] at h
        simp only at h
        split at h
        · exact ih hrest acc pre ut h
        · split at h
          · obtain ⟨h1, h2⟩ := ih hrest _ pre ut h
            refine ⟨h1.trans (alookup_dinsert_ne _ _ _ _ hpx), fun a m' => ?_⟩
            rw [h2 a m']
            simp [hpx]
          · obtain ⟨h1, h2⟩ := ih hrest _ pre ut h
            exact ⟨h1.trans (alookup_dinsert_ne _ _ _ _ hpx), h2⟩

theorem startWalkAux_prime (needflush : Bool) (excl : String → Bool)
    (e : FSEntry) (st : Stats) :
    ∀ (entries : List FSEntry), (entries.map FSEntry.path).Nodup → e ∈ entries →
      excl (basename e.path) = false → e.target = some st → S_ISLNK st.st_mode = false →
      ∀ acc pre ut, startWalkAux needflush excl acc entries = .ok (pre, ut) →
        alookup e.path acc.1 = none → (∀ a m', (e.path, a, m') ∉ acc.2) →
        alookup e.path pre =
          some ⟨if st.st_atime_ns ≥ st.st_mtime_ns then st.st_mtime_ns - DELTA
                else st.st_atime_ns,
                st.st_mtime_ns, st.st_size, needflush⟩ ∧
        (st.st_atime_ns ≥ st.st_mtime_ns →
          (e.path, st.st_mtime_ns - DELTA, st.st_mtime_ns) ∈ ut) ∧
        (st.st_atime_ns < st.st_mtime_ns → ∀ a m', (e.path, a, m') ∉ ut) := by
  intro entries
  induction entries with
  | nil => intro _ he; cases he
  | cons x rest ih =>
    intro hnd he hexcl htgt hlnk acc pre ut h hacc1 hacc2
    simp only [List.map_cons, List.nodup_cons] at hnd
    rcases List.mem_cons.mp he with rfl | he'
    · have hrest : ∀ y ∈ rest, y.path ≠ e.path := by
        intro y hy hcon
        exact hnd.1 (hcon ▸ List.mem_map_of_mem FSEntry.path hy)
      simp only [startWalkAux, hexcl, Bool.false_eq_true, if_false, htgt, hlnk] at h
      by_cases hge : st.st_atime_ns ≥ st.st_mtime_ns
      · rw [if_pos hge] at h
        obtain ⟨h1, h2⟩ := startWalkAux_preserve needflush excl e.path rest hrest _ pre ut h
        rw [alookup_dinsert_self] at h1
        refine ⟨by rw [h1, if_pos hge], fun _ => ?_, fun hlt => absurd hge (not_le.mpr hlt)⟩
        rw [h2]
        simp
      · rw [if_neg hge] at h
        obtain ⟨h1, h2⟩ := startWalkAux_preserve needflush excl e.path rest hrest _ pre ut h
        rw [alookup_dinsert_self] at h1
        refine ⟨by rw [h1, if_neg hge], fun hge' => absurd hge' hge, fun _ a m' => ?_⟩
        rw [h2 a m']
        exact hacc2 a m'
    · have hxe : e.path ≠ x.path := by
        intro hcon
        exact hnd.1 (hcon ▸ List.mem_map_of_mem FSEntry.path he')
      simp only [startWalkAux] at h
      split at h
      · exact ih hnd.2 he' hexcl htgt hlnk acc pre ut h hacc1 hacc2
      · cases hx : x.target with
        | none => rw [hx] at h; cases h
        | some st' =>
          rw [hx] at h
          simp only at h
          split at h
          · exact ih hnd.2 he' hexcl htgt hlnk acc pre ut h hacc1 hacc2
          · split at h
            · refine ih hnd.2 he' hexcl htgt hlnk _ pre ut h ?_ ?_
              · rw [alookup_dinsert_ne _ _ _ _ hxe]
                exact hacc1
              · intro a m' hmem
                rcases List.mem_append.mp hmem with hmem | hmem
                · exact hacc2 a m' hmem
                · simp only [List.mem_singleton, Prod.mk.injEq] at hmem
                  exact hxe hmem.1
            · refine ih hnd.2 he' hexcl htgt hlnk _ pre ut h ?_ hacc2
              rw [alookup_dinsert_ne _ _ _ _ hxe]
              exact hacc1

theorem mem_finals_addCat (c : Classification) (path : String) (bn : Bucket × NState)
    (p : String) (h : p ∈ c.finals.map Prod.fst) :
    p ∈ (addCat c path bn).finals.map Prod.fst := by
  obtain ⟨b, ns⟩ := bn
  cases b
  · exact h
  · exact h
  · simp only [addCat, List.map_cons, List.mem_cons]
    exact Or.inr h
  · exact h

/-! ### Claims -/

/-- Claim C1 (confirmed): every path of the post-snapshot taken by `finish`
is assigned to exactly one of the four category mappings: across the
concatenation `prereqs ++ intermediates ++ finals ++ unused` the path
occurs exactly once, so it is in one mapping and in no more than one. -/
theorem finish_partition (pre : List (String × PreData)) (refMatch : Option (String → Bool))
    (excl : String → Bool) (rt0 : Int) (entries : List FSEntry) (r : FinishResult)
    (h : finish pre refMatch excl rt0 entries = .ok r)
    (p : String) (hp : p ∈ r.post_state.map Prod.fst) :
    (allPaths r.cls).count p = 1 := by
  obtain ⟨lastOpt, hpw, _, hcls⟩ := finish_ok_elim pre refMatch excl rt0 entries r h
  have hnd : (r.post_state.map Prod.fst).Nodup :=
    postWalkAux_nodup refMatch excl entries ([], [], none)
      (r.post_state, r.reffiles, lastOpt) hpw (by simp)
  rw [hcls, count_allPaths_classify]
  exact List.count_eq_one_of_mem hnd hp

/-- Concrete audit run used to witness `finish_partition`. -/
def c1Entries : List FSEntry := [⟨"w", false, some ⟨0o100644, 1, 1, 1⟩⟩]

/-- Witness for `finish_partition` on a one-file post-snapshot. -/
theorem finish_partition_witness :
    (allPaths (FinishResult.mk [("w", ⟨1, 1, 1⟩)] [] 0
      ⟨[], [], [("w", ⟨(-2, 1), (-1, 1), (none, some 1)⟩)], []⟩).cls).count "w" = 1 :=
  finish_partition [] none (fun _ => false) 0 c1Entries
    (FinishResult.mk [("w", ⟨1, 1, 1⟩)] [] 0
      ⟨[], [], [("w", ⟨(-2, 1), (-1, 1), (none, some 1)⟩)], []⟩)
    rfl "w" (by decide)

/-- Filesystem with a symbolic link `link.txt` pointing at a regular file:
`os.stat` follows the link, so `target` holds the target's (regular) stats. -/
def linkFS : List FSEntry :=
  [⟨"real.txt", false, some ⟨0o100644, 300, 100, 5⟩⟩,
   ⟨"link.txt", true, some ⟨0o100644, 300, 100, 5⟩⟩]

/-- Claim C2 (code bug): the source guards with `stat.S_ISLNK(stats.st_mode)`
*after* `os.stat`, but `os.stat` follows symbolic links, so the mode it
returns is the target's regular-file mode and the guard never fires.  Both
the pre-run and the post-run walk therefore record the symlink path
`link.txt` (with the stats of its target), contradicting the claim that no
symlink path ever appears in a snapshot and that targets are never statted. -/
theorem walk_records_symlink_bug :
    S_ISLNK 0o100644 = false ∧
    (startWalk false (fun _ => false) linkFS).map (fun r => r.1.map Prod.fst) =
      .ok ["real.txt", "link.txt"] ∧
    (postWalk none (fun _ => false) linkFS).map (fun r => r.1.map Prod.fst) =
      .ok ["real.txt", "link.txt"] := by
  exact ⟨rfl, rfl, rfl⟩

/-- Pre-existing file whose atime (0) is already behind its mtime (2·DELTA). -/
def c3Entry : FSEntry := ⟨"f", false, some ⟨0o100644, 0, 2 * DELTA, 7⟩⟩

/-- Claim C3 counterexample: for a pre-existing file with `atime < mtime`
the pre-run walk leaves the atime untouched (stored atime 0, no utime
call), whereas the claim demands `mtime - DELTA` for *every* file
regardless of the initial atime/mtime ordering. -/
theorem prime_unconditional_false :
    startWalk false (fun _ => false) [c3Entry] =
      .ok ([("f", ⟨0, 2 * DELTA, 7, false⟩)], []) ∧
    (0 : Int) ≠ 2 * DELTA - DELTA := by
  exact ⟨rfl, by decide⟩

/-- Claim C3 as amended: `start` primes a pre-existing file only when its
atime is not already behind its mtime.  When `atime ≥ mtime` the stored
pre-state atime is `mtime - DELTA` and the corresponding `os.utime`
call (atime `mtime - DELTA`, mtime unchanged) is issued; when
`atime < mtime` the stored atime is the original one and no utime call is
issued for that path. -/
theorem start_prime_conditional (needflush : Bool) (excl : String → Bool)
    (entries : List FSEntry) (hnd : (entries.map FSEntry.path).Nodup)
    (e : FSEntry) (he : e ∈ entries) (hexcl : excl (basename e.path) = false)
    (st : Stats) (htgt : e.target = some st) (hlnk : S_ISLNK st.st_mode = false)
    (pre : List (String × PreData)) (ut : List (String × Int × Int))
    (hok : start none needflush excl entries = .ok (pre, ut)) :
    alookup e.path pre =
      some ⟨if st.st_atime_ns ≥ st.st_mtime_ns then st.st_mtime_ns - DELTA
            else st.st_atime_ns, st.st_mtime_ns, st.st_size, needflush⟩ ∧
    (st.st_atime_ns ≥ st.st_mtime_ns →
      (e.path, st.st_mtime_ns - DELTA, st.st_mtime_ns) ∈ ut) ∧
    (st.st_atime_ns < st.st_mtime_ns → ∀ a m', (e.path, a, m') ∉ ut) := by
  have h : startWalkAux needflush excl ([], []) entries = .ok (pre, ut) := hok
  exact startWalkAux_prime needflush excl e st entries hnd he hexcl htgt hlnk
    ([], []) pre ut h rfl (fun a m' hmem => by cases hmem)

/-- Witness for `start_prime_conditional`: a file with `atime 20 ≥ mtime 10`
is primed to `10 - DELTA`. -/
theorem start_prime_conditional_witness :
    alookup "g" [("g", (⟨10 - DELTA, 10, 4, false⟩ : PreData))] =
      some ⟨if (20 : Int) ≥ 10 then 10 - DELTA else 20, 10, 4, false⟩ ∧
    ((20 : Int) ≥ 10 → ("g", 10 - DELTA, 10) ∈ [("g", 10 - DELTA, (10 : Int))]) ∧
    ((20 : Int) < 10 → ∀ a m', ("g", a, m') ∉ [("g", 10 - DELTA, (10 : Int))]) :=
  start_prime_conditional false (fun _ => false)
    [⟨"g", false, some ⟨0o100644, 20, 10, 4⟩⟩] (by decide)
    ⟨"g", false, some ⟨0o100644, 20, 10, 4⟩⟩ (by decide) (by decide)
    ⟨0o100644, 20, 10, 4⟩ rfl (by decide) _ _ rfl

/-- Post-run tree with a ref-file `ref` (mtime 100) and a new file `f`
created with equal atime and mtime 50, both below the shifted reference
time. -/
def c4Entries : List FSEntry :=
  [⟨"ref", false, some ⟨0o100644, 90, 100, 1⟩⟩,
   ⟨"f", false, some ⟨0o100644, 50, 50, 2⟩⟩]

/-- Claim C4 counterexample: the new file `f` has post `mtime = atime = 50`,
yet it is classified as a prerequisite, not a final target, because its
mtime does not exceed the reference time (shifted to 100 by the ref file):
the `mtime <= reftime` branch of `finish` fires first. -/
theorem new_equal_times_not_always_final :
    (finish [] (some (fun b => b == "ref")) (fun _ => false) 0 c4Entries).map
      (fun r => (alookup "f" r.post_state, r.cls.finals, r.cls.prereqs.map Prod.fst)) =
      .ok (some ⟨50, 50, 2⟩, [], ["f"]) := by
  rfl

/-- Claim C4 as amended: a path absent from the pre-snapshot whose post
mtime equals its post atime is classified as a final target *provided its
mtime exceeds the reference time*. -/
theorem new_equal_times_final_after_reftime (pre : List (String × PreData))
    (rt ls : Int) (post : List (String × PostData)) (p : String) (d : PostData)
    (hmem : (p, d) ∈ post) (hpre : alookup p pre = none)
    (heq : d.mtime = d.atime) (hgt : rt < d.mtime) :
    p ∈ (classify pre rt ls post).finals.map Prod.fst := by
  induction post with
  | nil => cases hmem
  | cons hd rest ih =>
    obtain ⟨q, e⟩ := hd
    rcases List.mem_cons.mp hmem with heq' | hm'
    · injection heq' with h1 h2
      subst h1
      subst h2
      simp only [classify]
      have hone : classifyOne pre rt ls p d =
          (.final, ⟨(-2, d.atime), (-1, d.mtime), (none, some ls)⟩) := by
        unfold classifyOne
        rw [hpre]
        simp only
        rw [if_neg (by omega), if_neg (by omega), if_neg (by omega)]
      rw [hone]
      simp [addCat]
    · exact mem_finals_addCat _ _ _ _ (ih hm')

/-- Witness for `new_equal_times_final_after_reftime`. -/
theorem new_equal_times_final_after_reftime_witness :
    "g" ∈ (classify [] 0 9 [("g", ⟨50, 50, 1⟩)]).finals.map Prod.fst :=
  new_equal_times_final_after_reftime [] 0 9 [("g", ⟨50, 50, 1⟩)] "g" ⟨50, 50, 1⟩
    (by decide) rfl rfl (by decide)

/-- Pre-state for the recording-bug run: `a` will be read, `u` untouched. -/
def c5Pre : List (String × PreData) := [("a", ⟨5, 10, 5, false⟩), ("u", ⟨7, 9, 3, false⟩)]

/-- Post-run walk for the recording-bug run: `a` (size 5) and `u` (size 3),
then a new file `b` of size 999 walked last. -/
def c5Entries : List FSEntry :=
  [⟨"a", false, some ⟨0o100644, 20, 10, 5⟩⟩,
   ⟨"u", false, some ⟨0o100644, 7, 9, 3⟩⟩,
   ⟨"b", false, some ⟨0o100644, 30, 30, 999⟩⟩]

/-- Claim C5 (code bug): the recorded `FinalState` does not hold the path's
actual post-snapshot values.  The classification loop reads the stale walk
variable `stats` (the last file statted, `b` of size 999), so prerequisite
`a`, whose post-snapshot size is 5, is recorded with post-size 999; and the
unused branch records literal 0 for post-atime and post-mtime, so unused
`u`, whose post-snapshot atime/mtime are 7/9, is recorded as 0/0. -/
theorem finish_state_recording_bug :
    (finish c5Pre none (fun _ => false) 0 c5Entries).map
      (fun r => (alookup "a" r.post_state, alookup "a" r.cls.prereqs,
                 alookup "u" r.post_state, alookup "u" r.cls.unused)) =
      .ok (some ⟨20, 10, 5⟩, some ⟨(5, 20), (10, 10), (some 5, some 999)⟩,
           some ⟨7, 9, 3⟩, some ⟨(7, 0), (9, 0), (some 3, some 3)⟩) := by
  rfl

/-- Post-run walk listing a file that vanished before its stat call. -/
def c6Entries : List FSEntry :=
  [⟨"a", false, some ⟨0o100644, 1, 1, 1⟩⟩, ⟨"gone", false, none⟩]

/-- Claim C6 counterexample: with the file `gone` deleted between the walk
listing and the stat call, `finish` does not skip the path and classify the
rest — the unguarded `os.stat` raises and the whole run aborts with an
error, producing no classification. -/
theorem finish_stat_race_aborts :
    finish [] none (fun _ => false) 0 c6Entries = .error "stat failed: gone" := by
  rfl

/-- Claim C6 as amended: if any walked, non-excluded path vanishes between
the post-run walk listing and its stat call, `finish` aborts with an error
(no classification of the remaining paths is produced). -/
theorem finish_stat_race_error (pre : List (String × PreData))
    (refMatch : Option (String → Bool)) (excl : String → Bool) (rt0 : Int)
    (entries : List FSEntry) (e : FSEntry) (he : e ∈ entries)
    (hexcl : excl (basename e.path) = false) (hnone : e.target = none) :
    ∃ msg, finish pre refMatch excl rt0 entries = .error msg := by
  obtain ⟨msg, hmsg⟩ := postWalkAux_error refMatch excl entries e he hexcl hnone ([], [], none)
  refine ⟨msg, ?_⟩
  unfold finish
  rw [show postWalk refMatch excl entries = .error msg from hmsg]

/-- Witness for `finish_stat_race_error`. -/
theorem finish_stat_race_error_witness :
    ∃ msg, finish [] none (fun _ => false) 0 c6Entries = .error msg :=
  finish_stat_race_error [] none (fun _ => false) 0 c6Entries
    ⟨"gone", false, none⟩ (by decide) rfl rfl

/-- Claim C7 (confirmed): when a ref-file pattern is supplied and no stat
race occurs, `finish` fails when the pattern matches no walked file or more
than one, and on exactly one match the reference time used by the
classification is that file's post-run mtime. -/
theorem finish_reffile_resolution (pre : List (String × PreData)) (m : String → Bool)
    (excl : String → Bool) (rt0 : Int) (entries : List FSEntry)
    (hstat : ∀ e ∈ entries, excl (basename e.path) = false → e.target ≠ none) :
    (refMatches m excl entries = [] →
      finish pre (some m) excl rt0 entries = .error "reffile not found") ∧
    (2 ≤ (refMatches m excl entries).length →
      finish pre (some m) excl rt0 entries = .error "multiple reffile matches") ∧
    (∀ x, refMatches m excl entries = [x] →
      ∃ post lastSize, finish pre (some m) excl rt0 entries =
        .ok ⟨post, [x], x.2.mtime, classify pre x.2.mtime lastSize post⟩) := by
  obtain ⟨post, lastOpt, hpw⟩ := postWalkAux_refMatches m excl entries ([], [], none) hstat
  have hpw' : postWalk (some m) excl entries =
      .ok (post, refMatches m excl entries, lastOpt) := by simpa using hpw
  refine ⟨?_, ?_, ?_⟩
  · intro hnil
    unfold finish
    rw [hpw', hnil]
    simp [resolveReftime]
  · intro hlen
    unfold finish
    rw [hpw']
    have hgt : (refMatches m excl entries).length > 1 := by omega
    simp only [resolveReftime, if_pos hgt]
  · intro x hx
    refine ⟨post, (lastOpt.map Stats.st_size).getD 0, ?_⟩
    unfold finish
    rw [hpw', hx]
    simp [resolveReftime]

/-- One-match post-run tree for the ref-file witness. -/
def c7Entries : List FSEntry :=
  [⟨"out/ref.stamp", false, some ⟨0o100644, 40, 42, 1⟩⟩,
   ⟨"x", false, some ⟨0o100644, 50, 50, 2⟩⟩]

/-- Witness for `finish_reffile_resolution`: exactly one match shifts the
reference time to the match's mtime 42. -/
theorem finish_reffile_resolution_witness :
    ∃ post lastSize,
      finish [] (some (fun b => b == "ref.stamp")) (fun _ => false) 0 c7Entries =
        .ok ⟨post, [("out/ref.stamp", ⟨40, 42, 1⟩)], (42 : Int),
             classify [] 42 lastSize post⟩ :=
  (finish_reffile_resolution [] (fun b => b == "ref.stamp") (fun _ => false) 0 c7Entries
    (by decide)).2.2 ("out/ref.stamp", ⟨40, 42, 1⟩) (by decide)

/-- Claim C8 (confirmed): when a parallel make is detected via `MAKEFLAGS`,
`start` raises before probing or walking anything, and the run driver
returns without ever starting the audited command. -/
theorem start_parallel_abort (makeflags : Option String) (needflush : Bool)
    (excl : String → Bool) (refMatch : Option (String → Bool)) (rt0 : Int)
    (command : List FSEntry → List FSEntry) (entries : List FSEntry)
    (h : parallelDetected makeflags = true) :
    start makeflags needflush excl entries = .error "not supported in -j mode" ∧
    runAudit makeflags needflush excl refMatch rt0 command entries =
      (false, .error "not supported in -j mode") := by
  have hs : start makeflags needflush excl entries = .error "not supported in -j mode" := by
    simp [start, h]
  refine ⟨hs, ?_⟩
  unfold runAudit
  rw [hs]

/-- Witness for `start_parallel_abort` with `MAKEFLAGS=" -j8"`. -/
theorem start_parallel_abort_witness :
    start (some " -j8") false (fun _ => false) [] = .error "not supported in -j mode" ∧
    runAudit (some " -j8") false (fun _ => false) none 0 id [] =
      (false, .error "not supported in -j mode") :=
  start_parallel_abort (some " -j8") false (fun _ => false) none 0 id [] (by decide)

/-- Claim C10 (confirmed): with a ref-file pattern supplied, any path whose
basename matches the pattern is diverted into `reffiles` during the
post-run walk and never stored in `post_state`, so it appears in none of
the four category mappings of a successful `finish`. -/
theorem reffile_not_classified (pre : List (String × PreData)) (m : String → Bool)
    (excl : String → Bool) (rt0 : Int) (entries : List FSEntry) (r : FinishResult)
    (h : finish pre (some m) excl rt0 entries = .ok r)
    (p : String) (hm : m (basename p) = true) :
    p ∉ allPaths r.cls := by
  obtain ⟨lastOpt, hpw, _, hcls⟩ := finish_ok_elim pre (some m) excl rt0 entries r h
  intro hp
  have hcount : 0 < (allPaths r.cls).count p := List.count_pos_iff.mpr hp
  rw [hcls, count_allPaths_classify] at hcount
  have hmem : p ∈ r.post_state.map Prod.fst := List.count_pos_iff.mp hcount
  have hfalse := postWalkAux_not_ref m excl entries ([], [], none)
    (r.post_state, r.reffiles, lastOpt) hpw (by simp) p hmem
  rw [hm] at hfalse
  cases hfalse

/-- Post-run tree for the ref-file-diversion witness. -/
def c10Entries : List FSEntry :=
  [⟨"dir/stamp.ref", false, some ⟨0o100644, 10, 12, 1⟩⟩,
   ⟨"y", false, some ⟨0o100644, 5, 5, 2⟩⟩]

/-- Witness for `reffile_not_classified`: the diverted match
`dir/stamp.ref` is in no category mapping. -/
theorem reffile_not_classified_witness :
    "dir/stamp.ref" ∉ allPaths (FinishResult.mk [("y", ⟨5, 5, 2⟩)]
      [("dir/stamp.ref", ⟨10, 12, 1⟩)] 12
      ⟨[("y", ⟨(-2, 5), (-1, 5), (none, some 2)⟩)], [], [], []⟩).cls :=
  reffile_not_classified [] (fun b => b == "stamp.ref") (fun _ => false) 0 c10Entries
    (FinishResult.mk [("y", ⟨5, 5, 2⟩)] [("dir/stamp.ref", ⟨10, 12, 1⟩)] 12
      ⟨[("y", ⟨(-2, 5), (-1, 5), (none, some 2)⟩)], [], [], []⟩)
    rfl "dir/stamp.ref" (by decide)

/-! ### Serialization model

Python values that can reach `dump_json` are modelled as `PyVal`; Python
strings are sequences of Unicode code points (`List Nat`).  `dumps` models
`json.dump` with its defaults (`ensure_ascii=True`, separators `", "` and
`": "`); `jsonDumpFlat` models the custom writer `json_dump_flat`; the
`parse*` functions model the standard `json.load` reader. -/

/-- Python values handled by the JSON layer. -/
inductive PyVal where
  | null : PyVal
  | bool : Bool → PyVal
  | int : Int → PyVal
  | str : List Nat → PyVal
  | list : List PyVal → PyVal
  | dict : List (List Nat × PyVal) → PyVal

/-- Lowercase hexadecimal digit of a value below 16 (`'{0:04x}'.format`). -/
def hexDigit (d : Nat) : Nat := if d < 10 then 48 + d else 87 + d

/-- Four lowercase hex digits of a value below `0x10000`. -/
def hex4 (n : Nat) : List Nat :=
  [hexDigit (n / 4096 % 16), hexDigit (n / 256 % 16), hexDigit (n / 16 % 16), hexDigit (n % 16)]

/-- JSON escaping of one code point under `ensure_ascii=True`: quote,
backslash and the short control escapes, `\uXXXX` for the other controls
and for all non-ASCII points, with a surrogate pair for points above
`0xFFFF`. -/
def escPoint (c : Nat) : List Nat :=
  if c = 34 then [92, 34]
  else if c = 92 then [92, 92]
  else if c = 8 then [92, 98]
  else if c = 9 then [92, 116]
  else if c = 10 then [92, 110]
  else if c = 12 then [92, 102]
  else if c = 13 then [92, 114]
  else if c < 32 then 92 :: 117 :: hex4 c
  else if c ≤ 126 then [c]
  else if c < 65536 then 92 :: 117 :: hex4 c
  else 92 :: 117 :: hex4 (55296 + (c - 65536) / 1024) ++
       (92 :: 117 :: hex4 (56320 + (c - 65536) % 1024))

/-- JSON escaping of a whole string body. -/
def escStr : List Nat → List Nat
  | [] => []
  | c :: t => escPoint c ++ escStr t

/-- Decimal digits (as code points) of a natural number. -/
def natDigits (n : Nat) : List Nat :=
  if h : n < 10 then [48 + n] else natDigits (n / 10) ++ [48 + n % 10]
termination_by n
decreasing_by exact Nat.div_lt_self (by omega) (by omega)

/-- Python `repr` of an `int` as code points. -/
def intLit (i : Int) : List Nat :=
  if i < 0 then 45 :: natDigits (-i).toNat else natDigits i.toNat

mutual

/-- Model of `json.dump` with default formatting (single line, separators
`", "` and `": "`, `ensure_ascii`). -/
def dumps : PyVal → List Nat
  | .null => [110, 117, 108, 108]
  | .bool true => [116, 114, 117, 101]
  | .bool false => [102, 97, 108, 115, 101]
  | .int i => intLit i
  | .str s => 34 :: (escStr s ++ [34])
  | .list xs => 91 :: (dumpsElems xs ++ [93])
  | .dict kvs => 123 :: (dumpsEntries kvs ++ [125])

/-- Comma-separated list elements of `json.dump`. -/
def dumpsElems : List PyVal → List Nat
  | [] => []
  | [x] => dumps x
  | x :: y :: t => dumps x ++ (44 :: 32 :: dumpsElems (y :: t))

/-- Comma-separated object entries of `json.dump`. -/
def dumpsEntries : List (List Nat × PyVal) → List Nat
  | [] => []
  | [(k, v)] => 34 :: (escStr k ++ (34 :: 58 :: 32 :: dumps v))
  | (k, v) :: x :: t =>
    34 :: (escStr k ++ (34 :: 58 :: 32 :: (dumps v ++ (44 :: 32 :: dumpsEntries (x :: t)))))

end

/-- Indentation: `n * ' '`. -/
def spaces (n : Nat) : List Nat := List.replicate n 32

/-- The code points of the key string `"atime"`. -/
def atimeKey : List Nat := [97, 116, 105, 109, 101]

/-- Python `ATIME in data` on a dict's key list. -/
def hasAtime (kvs : List (List Nat × PyVal)) : Bool :=
  kvs.any fun kv => kv.1 == atimeKey

mutual

/-- The custom writer `json_dump_flat` (source lines 428-452): a non-empty
dict without an `"atime"` key is printed one key per line with indentation;
everything else is handed to `json.dump`. -/
def jsonDumpFlat (current indent : Nat) : PyVal → List Nat
  | .dict [] => dumps (.dict [])
  | .dict (kv :: kvs) =>
    if hasAtime (kv :: kvs) = false then
      123 :: 10 :: (prettyEntries (current + indent) indent (kv :: kvs) ++
        (10 :: (spaces current ++ [125])))
    else dumps (.dict (kv :: kvs))
  | v => dumps v

/-- The entry loop of `json_dump_flat`: each entry is written as
`indent_text ++ json.dumps(key) ++ ": " ++ json_dump_flat(value)`, with
`",\n"` written before every entry but the first. -/
def prettyEntries (ni indent : Nat) : List (List Nat × PyVal) → List Nat
  | [] => []
  | [(k, v)] => spaces ni ++ (34 :: (escStr k ++ (34 :: 58 :: 32 :: jsonDumpFlat ni indent v)))
  | (k, v) :: x :: t =>
    spaces ni ++ (34 :: (escStr k ++ (34 :: 58 :: 32 :: (jsonDumpFlat ni indent v ++
      (44 :: 10 :: prettyEntries ni indent (x :: t))))))

end

/-- `dump_json` (source lines 425-459): the custom writer from indentation
0 with step 2, followed by a final newline. -/
def dumpJson (v : PyVal) : List Nat := jsonDumpFlat 0 2 v ++ [10]

/-! ### A standard JSON reader -/

/-- Skip JSON whitespace (space, tab, newline, carriage return). -/
def skipWs : List Nat → List Nat
  | [] => []
  | c :: t => if c = 32 ∨ c = 9 ∨ c = 10 ∨ c = 13 then skipWs t else c :: t

/-- Value of one hexadecimal digit (either case). -/
def hexVal (c : Nat) : Option Nat :=
  if 48 ≤ c ∧ c ≤ 57 then some (c - 48)
  else if 97 ≤ c ∧ c ≤ 102 then some (c - 87)
  else if 65 ≤ c ∧ c ≤ 70 then some (c - 55)
  else none

/-- Read four hexadecimal digits. -/
def parseHex4 : List Nat → Option (Nat × List Nat)
  | a :: b :: c :: d :: rest =>
    match hexVal a, hexVal b, hexVal c, hexVal d with
    | some x, some y, some z, some w => some (4096 * x + 256 * y + 16 * z + w, rest)
    | _, _, _, _ => none
  | _ => none

/-- Consume a run of decimal digits, accumulating their value. -/
def digRun : List Nat → Nat → Nat × List Nat
  | [], acc => (acc, [])
  | c :: t, acc => if 48 ≤ c ∧ c ≤ 57 then digRun t (acc * 10 + (c - 48)) else (acc, c :: t)

/-- Read an integer literal (optional minus sign, then digits). -/
def parseNum : List Nat → Option (PyVal × List Nat)
  | [] => none
  | c :: t =>
    if c = 45 then
      match t with
      | [] => none
      | c2 :: t2 =>
        if 48 ≤ c2 ∧ c2 ≤ 57 then
          some (.int (-((digRun t2 (c2 - 48)).1 : Int)), (digRun t2 (c2 - 48)).2)
        else none
    else if 48 ≤ c ∧ c ≤ 57 then
      some (.int ((digRun t (c - 48)).1 : Int), (digRun t (c - 48)).2)
    else none

mutual

/-- Read a string body after the opening quote, decoding escapes and
recombining surrogate pairs the way Python's `json` scanner does. -/
def parseStrBody : Nat → List Nat → Option (List Nat × List Nat)
  | 0, _ => none
  | _ + 1, [] => none
  | fuel + 1, c :: t =>
    if c = 34 then some ([], t)
    else if c = 92 then
      match t with
      | [] => none
      | e :: t2 =>
        if e = 34 then (parseStrBody fuel t2).map (fun r => (34 :: r.1, r.2))
        else if e = 92 then (parseStrBody fuel t2).map (fun r => (92 :: r.1, r.2))
        else if e = 47 then (parseStrBody fuel t2).map (fun r => (47 :: r.1, r.2))
        else if e = 98 then (parseStrBody fuel t2).map (fun r => (8 :: r.1, r.2))
        else if e = 116 then (parseStrBody fuel t2).map (fun r => (9 :: r.1, r.2))
        else if e = 110 then (parseStrBody fuel t2).map (fun r => (10 :: r.1, r.2))
        else if e = 102 then (parseStrBody fuel t2).map (fun r => (12 :: r.1, r.2))
        else if e = 114 then (parseStrBody fuel t2).map (fun r => (13 :: r.1, r.2))
        else if e = 117 then parseUEsc fuel t2
        else none
    else if c < 32 then none
    else (parseStrBody fuel t).map (fun r => (c :: r.1, r.2))
termination_by fuel _ => (fuel, 0)

/-- Decode a `\uXXXX` escape, attempting surrogate-pair recombination. -/
def parseUEsc : Nat → List Nat → Option (List Nat × List Nat)
  | fuel, t2 =>
    match parseHex4 t2 with
    | none => none
    | some (n, t3) =>
      if 55296 ≤ n ∧ n ≤ 56319 then parsePairTail fuel n t3
      else (parseStrBody fuel t3).map (fun r => (n :: r.1, r.2))
termination_by fuel _ => (fuel, 2)

/-- After a high surrogate: look for a following `\uXXXX` low surrogate
and combine, else keep the lone high surrogate. -/
def parsePairTail : Nat → Nat → List Nat → Option (List Nat × List Nat)
  | fuel, n, [] => (parseStrBody fuel []).map (fun r => (n :: r.1, r.2))
  | fuel, n, [a] => (parseStrBody fuel [a]).map (fun r => (n :: r.1, r.2))
  | fuel, n, a :: b :: t4 =>
    if a = 92 ∧ b = 117 then
      match parseHex4 t4 with
      | some (m, t5) =>
        if 56320 ≤ m ∧ m ≤ 57343 then
          (parseStrBody fuel t5).map
            (fun r => ((65536 + (n - 55296) * 1024 + (m - 56320)) :: r.1, r.2))
        else (parseStrBody fuel (a :: b :: t4)).map (fun r => (n :: r.1, r.2))
      | none => (parseStrBody fuel (a :: b :: t4)).map (fun r => (n :: r.1, r.2))
    else (parseStrBody fuel (a :: b :: t4)).map (fun r => (n :: r.1, r.2))
termination_by fuel _ _ => (fuel, 1)

end

mutual

/-- Read one JSON value starting at a non-whitespace position. -/
def parseVal : Nat → List Nat → Option (PyVal × List Nat)
  | 0, _ => none
  | _ + 1, [] => none
  | fuel + 1, c :: t =>
    if c = 34 then (parseStrBody fuel t).map (fun r => (.str r.1, r.2))
    else if c = 123 then
      match skipWs t with
      | [] => none
      | c2 :: t2 =>
        if c2 = 125 then some (.dict [], t2)
        else (parseEntries fuel (c2 :: t2)).map (fun r => (.dict r.1, r.2))
    else if c = 91 then
      match skipWs t with
      | [] => none
      | c2 :: t2 =>
        if c2 = 93 then some (.list [], t2)
        else (parseElems fuel (c2 :: t2)).map (fun r => (.list r.1, r.2))
    else if c = 110 then
      match t with
      | t1 :: t2 :: t3 :: rest =>
        if t1 = 117 ∧ t2 = 108 ∧ t3 = 108 then some (.null, rest) else none
      | _ => none
    else if c = 116 then
      match t with
      | t1 :: t2 :: t3 :: rest =>
        if t1 = 114 ∧ t2 = 117 ∧ t3 = 101 then some (.bool true, rest) else none
      | _ => none
    else if c = 102 then
      match t with
      | t1 :: t2 :: t3 :: t4 :: rest =>
        if t1 = 97 ∧ t2 = 108 ∧ t3 = 115 ∧ t4 = 101 then some (.bool false, rest) else none
      | _ => none
    else parseNum (c :: t)

/-- Read the elements of a non-empty JSON array up to `]`. -/
def parseElems : Nat → List Nat → Option (List PyVal × List Nat)
  | 0, _ => none
  | fuel + 1, s =>
    match parseVal fuel s with
    | none => none
    | some (v, rest) =>
      match skipWs rest with
      | [] => none
      | c :: rest2 =>
        if c = 44 then (parseElems fuel (skipWs rest2)).map (fun r => (v :: r.1, r.2))
        else if c = 93 then some ([v], rest2)
        else none

/-- Read the entries of a non-empty JSON object up to the closing brace. -/
def parseEntries : Nat → List Nat → Option (List (List Nat × PyVal) × List Nat)
  | 0, _ => none
  | fuel + 1, s =>
    match s with
    | [] => none
    | c0 :: t =>
      if c0 = 34 then
        match parseStrBody fuel t with
        | none => none
        | some (k, rest) =>
          match skipWs rest with
          | [] => none
          | c1 :: rest2 =>
            if c1 = 58 then
              match parseVal fuel (skipWs rest2) with
              | none => none
              | some (v, rest3) =>
                match skipWs rest3 with
                | [] => none
                | c2 :: rest4 =>
                  if c2 = 44 then
                    (parseEntries fuel (skipWs rest4)).map (fun r => ((k, v) :: r.1, r.2))
                  else if c2 = 125 then some ([(k, v)], rest4)
                  else none
            else none
      else none

end

/-- Model of `json.load`: skip leading whitespace, read one value, then
require only trailing whitespace. -/
def loads (s : List Nat) : Option PyVal :=
  match parseVal (s.length + 1) (skipWs s) with
  | none => none
  | some (v, rest) => if skipWs rest = [] then some v else none

/-! ### Round-trip lemmas: whitespace, hex digits, decimal digits -/

theorem skipWs_not (c : Nat) (s : List Nat)
    (h : ¬(c = 32 ∨ c = 9 ∨ c = 10 ∨ c = 13)) : skipWs (c :: s) = c :: s := by
  simp only [skipWs, if_neg h]

theorem skipWs_ws (c : Nat) (s : List Nat)
    (h : c = 32 ∨ c = 9 ∨ c = 10 ∨ c = 13) : skipWs (c :: s) = skipWs s := by
  simp only [skipWs, if_pos h]

theorem skipWs_spaces (n : Nat) (s : List Nat) : skipWs (spaces n ++ s) = skipWs s := by
  induction n with
  | zero => rfl
  | succ k ih =>
    rw [spaces, List.replicate_succ, List.cons_append, skipWs_ws 32 _ (by omega)]
    exact ih

theorem hexVal_hexDigit (d : Nat) (h : d < 16) : hexVal (hexDigit d) = some d := by
  by_cases h10 : d < 10
  · rw [hexDigit, if_pos h10, hexVal, if_pos (by omega)]
    congr 1
    omega
  · rw [hexDigit, if_neg h10, hexVal, if_neg (by omega), if_pos (by omega)]
    congr 1
    omega

theorem parseHex4_hex4 (n : Nat) (h : n < 65536) (rest : List Nat) :
    parseHex4 (hex4 n ++ rest) = some (n, rest) := by
  have e1 := hexVal_hexDigit (n / 4096 % 16) (by omega)
  have e2 := hexVal_hexDigit (n / 256 % 16) (by omega)
  have e3 := hexVal_hexDigit (n / 16 % 16) (by omega)
  have e4 := hexVal_hexDigit (n % 16) (by omega)
  show parseHex4 (hexDigit (n / 4096 % 16) :: hexDigit (n / 256 % 16) ::
    hexDigit (n / 16 % 16) :: hexDigit (n % 16) :: rest) = some (n, rest)
  simp only [parseHex4, e1, e2, e3, e4]
  have harith : 4096 * (n / 4096 % 16) + 256 * (n / 256 % 16) + 16 * (n / 16 % 16) + n % 16 = n := by
    omega
  rw [harith]

theorem natDigits_ne_nil (n : Nat) : natDigits n ≠ [] := by
  rw [natDigits]
  split
  · simp
  · simp

theorem natDigits_digits : ∀ n, ∀ c ∈ natDigits n, 48 ≤ c ∧ c ≤ 57 := by
  intro n
  induction n using Nat.strong_induction_on with
  | _ n ih =>
    intro c hc
    rw [natDigits] at hc
    split at hc
    · rename_i h
      simp only [List.mem_singleton] at hc
      omega
    · rename_i h
      rcases List.mem_append.mp hc with h1 | h1
      · exact ih (n / 10) (Nat.div_lt_self (by omega) (by omega)) c h1
      · simp only [List.mem_singleton] at h1
        omega

/-- Value of a digit string consumed left to right onto an accumulator. -/
def digAcc (acc : Nat) : List Nat → Nat
  | [] => acc
  | c :: t => digAcc (acc * 10 + (c - 48)) t

theorem digAcc_nil (acc : Nat) : digAcc acc [] = acc := rfl

theorem digAcc_cons (acc c : Nat) (t : List Nat) :
    digAcc acc (c :: t) = digAcc (acc * 10 + (c - 48)) t := rfl

theorem digAcc_append (s t : List Nat) : ∀ acc, digAcc acc (s ++ t) = digAcc (digAcc acc s) t := by
  induction s with
  | nil => intro acc; rfl
  | cons c s' ih =>
    intro acc
    rw [List.cons_append, digAcc_cons, digAcc_cons]
    exact ih (acc * 10 + (c - 48))

theorem digAcc_natDigits : ∀ n, digAcc 0 (natDigits n) = n := by
  intro n
  induction n using Nat.strong_induction_on with
  | _ n ih =>
    rw [natDigits]
    split
    · rename_i h
      rw [digAcc_cons, digAcc_nil]
      omega
    · rename_i h
      rw [digAcc_append, ih (n / 10) (Nat.div_lt_self (by omega) (by omega)),
        digAcc_cons, digAcc_nil]
      omega

/-- The next input character, if any, is not a decimal digit. -/
def headNotDigit : List Nat → Prop
  | [] => True
  | c :: _ => ¬(48 ≤ c ∧ c ≤ 57)

theorem digRun_digits (s : List Nat) (hs : ∀ c ∈ s, 48 ≤ c ∧ c ≤ 57) :
    ∀ acc rest, headNotDigit rest → digRun (s ++ rest) acc = (digAcc acc s, rest) := by
  induction s with
  | nil =>
    intro acc rest h
    cases rest with
    | nil => rfl
    | cons c t =>
      have h' : ¬(48 ≤ c ∧ c ≤ 57) := h
      simp only [List.nil_append, digRun, if_neg h', digAcc_nil]
  | cons c s' ih =>
    intro acc rest h
    have hc := hs c (List.mem_cons_self c s')
    simp only [List.cons_append, digRun, if_pos hc, digAcc_cons]
    exact ih (fun d hd => hs d (List.mem_cons_of_mem c hd)) _ rest h

theorem parseNum_natDigits (n : Nat) (rest : List Nat) (h : headNotDigit rest) :
    parseNum (natDigits n ++ rest) = some (.int (n : Int), rest) := by
  obtain ⟨c, t, hshape⟩ : ∃ c t, natDigits n = c :: t := by
    cases hd : natDigits n with
    | nil => exact absurd hd (natDigits_ne_nil _)
    | cons c t => exact ⟨c, t, rfl⟩
  have hall := natDigits_digits n
  rw [hshape] at hall
  have hc : 48 ≤ c ∧ c ≤ 57 := hall c (List.mem_cons_self c t)
  have hval : digAcc (c - 48) t = n := by
    have h0 := digAcc_natDigits n
    rw [hshape, digAcc_cons] at h0
    rwa [show 0 * 10 + (c - 48) = c - 48 by omega] at h0
  rw [hshape, List.cons_append]
  simp only [parseNum]
  rw [if_neg (show ¬c = 45 by omega), if_pos hc,
    digRun_digits t (fun d hd => hall d (List.mem_cons_of_mem c hd)) (c - 48) rest h]
  simp only [hval]

theorem parseNum_intLit (i : Int) (rest : List Nat) (h : headNotDigit rest) :
    parseNum (intLit i ++ rest) = some (.int i, rest) := by
  by_cases hneg : i < 0
  · rw [intLit, if_pos hneg]
    obtain ⟨c, t, hshape⟩ : ∃ c t, natDigits (-i).toNat = c :: t := by
      cases hd : natDigits (-i).toNat with
      | nil => exact absurd hd (natDigits_ne_nil _)
      | cons c t => exact ⟨c, t, rfl⟩
    have hall := natDigits_digits (-i).toNat
    rw [hshape] at hall
    have hc : 48 ≤ c ∧ c ≤ 57 := hall c (List.mem_cons_self c t)
    have hval : digAcc (c - 48) t = (-i).toNat := by
      have h0 := digAcc_natDigits (-i).toNat
      rw [hshape, digAcc_cons] at h0
      rwa [show 0 * 10 + (c - 48) = c - 48 by omega] at h0
    rw [List.cons_append, hshape, List.cons_append]
    simp only [parseNum, if_pos rfl]
    rw [if_pos hc,
      digRun_digits t (fun d hd => hall d (List.mem_cons_of_mem c hd)) (c - 48) rest h]
    simp only [hval]
    have htn : (((-i).toNat : Int)) = -i := Int.toNat_of_nonneg (by omega)
    rw [htn, neg_neg]
    simp only [if_true]
  · rw [intLit, if_neg hneg]
    exact parseNum_natDigits i.toNat rest h |>.trans
      (by rw [Int.toNat_of_nonneg (by omega)])

/-! ### Round-trip for string bodies -/

/-- A code point is a Unicode scalar value (not a surrogate, in range). -/
def scalarPoint (c : Nat) : Prop := c < 55296 ∨ (57343 < c ∧ c < 1114112)

theorem psb_close (f : Nat) (rest : List Nat) :
    parseStrBody (f + 1) (34 :: rest) = some ([], rest) := by
  conv_lhs => rw [parseStrBody.eq_def]
  simp

theorem psb_esc (f e v : Nat) (X : List Nat)
    (h : (e = 34 ∧ v = 34) ∨ (e = 92 ∧ v = 92) ∨ (e = 98 ∧ v = 8) ∨ (e = 116 ∧ v = 9) ∨
         (e = 110 ∧ v = 10) ∨ (e = 102 ∧ v = 12) ∨ (e = 114 ∧ v = 13)) :
    parseStrBody (f + 1) (92 :: e :: X) =
      (parseStrBody f X).map (fun r => (v :: r.1, r.2)) := by
  rcases h with ⟨rfl, rfl⟩ | ⟨rfl, rfl⟩ | ⟨rfl, rfl⟩ | ⟨rfl, rfl⟩ |
    ⟨rfl, rfl⟩ | ⟨rfl, rfl⟩ | ⟨rfl, rfl⟩
  all_goals
    conv_lhs => rw [parseStrBody.eq_def]
    simp

theorem psb_plain (f c : Nat) (X : List Nat)
    (h34 : ¬c = 34) (h92 : ¬c = 92) (h32 : ¬c < 32) :
    parseStrBody (f + 1) (c :: X) =
      (parseStrBody f X).map (fun r => (c :: r.1, r.2)) := by
  conv_lhs => rw [parseStrBody.eq_def]
  simp [h34, h92, h32]

theorem psb_uHead (f : Nat) (t2 : List Nat) :
    parseStrBody (f + 1) (92 :: 117 :: t2) = parseUEsc f t2 := by
  conv_lhs => rw [parseStrBody.eq_def]
  simp

theorem psb_u (f n : Nat) (hn : n < 65536) (hns : ¬(55296 ≤ n ∧ n ≤ 56319)) (X : List Nat) :
    parseUEsc f (hex4 n ++ X) =
      (parseStrBody f X).map (fun r => (n :: r.1, r.2)) := by
  conv_lhs => rw [parseUEsc.eq_def]
  simp [parseHex4_hex4 n hn X, hns]

theorem psb_uHi (f n : Nat) (hn : n < 65536) (hsur : 55296 ≤ n ∧ n ≤ 56319) (Y : List Nat) :
    parseUEsc f (hex4 n ++ Y) = parsePairTail f n Y := by
  conv_lhs => rw [parseUEsc.eq_def]
  simp [parseHex4_hex4 n hn Y, hsur]

set_option maxHeartbeats 2000000 in
theorem psb_uLo (f n m : Nat) (hm : m < 65536) (hsur : 56320 ≤ m ∧ m ≤ 57343) (X : List Nat) :
    parsePairTail f n (92 :: 117 :: (hex4 m ++ X)) =
      (parseStrBody f X).map
        (fun r => ((65536 + (n - 55296) * 1024 + (m - 56320)) :: r.1, r.2)) := by
  conv_lhs => rw [parsePairTail.eq_def]
  simp [parseHex4_hex4 m hm X, hsur]

theorem psb_pair (f c : Nat) (h1 : 65536 ≤ c) (h2 : c < 1114112) (X : List Nat) :
    parseUEsc f
      (hex4 (55296 + (c - 65536) / 1024) ++
        (92 :: 117 :: (hex4 (56320 + (c - 65536) % 1024) ++ X))) =
      (parseStrBody f X).map (fun r => (c :: r.1, r.2)) := by
  have hdiv : (c - 65536) / 1024 ≤ 1023 := by omega
  have hmod : (c - 65536) % 1024 ≤ 1023 := by omega
  rw [psb_uHi f _ (by omega) (by omega) _, psb_uLo f _ _ (by omega) (by omega) X]
  have harith :
      65536 + (55296 + (c - 65536) / 1024 - 55296) * 1024 +
        (56320 + (c - 65536) % 1024 - 56320) = c := by
    omega
  rw [harith]

instance scalarPointDec (c : Nat) : Decidable (scalarPoint c) := by
  unfold scalarPoint
  infer_instance

theorem parseStrBody_escStr :
    ∀ (s : List Nat), (∀ c ∈ s, scalarPoint c) →
      ∀ fuel, s.length + 1 ≤ fuel → ∀ rest,
        parseStrBody fuel (escStr s ++ (34 :: rest)) = some (s, rest) := by
  intro s
  induction s with
  | nil =>
    intro _ fuel hf rest
    obtain ⟨f, rfl⟩ : ∃ f, fuel = f + 1 := ⟨fuel - 1, by omega⟩
    rw [escStr, List.nil_append]
    exact psb_close f rest
  | cons c t ih =>
    intro hs fuel hf rest
    obtain ⟨f, rfl⟩ : ∃ f, fuel = f + 1 := ⟨fuel - 1, by omega⟩
    have hc : scalarPoint c := hs c (List.mem_cons_self c t)
    have ihf := ih (fun d hd => hs d (List.mem_cons_of_mem c hd)) f
      (by simp only [List.length_cons] at hf; omega) rest
    rw [escStr, List.append_assoc]
    by_cases h1 : c = 34
    · subst h1
      rw [show escPoint 34 = [92, 34] from rfl]
      simp only [List.cons_append, List.nil_append]
      rw [psb_esc f 34 34 _ (Or.inl ⟨rfl, rfl⟩), ihf]
      rfl
    by_cases h2 : c = 92
    · subst h2
      rw [show escPoint 92 = [92, 92] from rfl]
      simp only [List.cons_append, List.nil_append]
      rw [psb_esc f 92 92 _ (Or.inr (Or.inl ⟨rfl, rfl⟩)), ihf]
      rfl
    by_cases h3 : c = 8
    · subst h3
      rw [show escPoint 8 = [92, 98] from rfl]
      simp only [List.cons_append, List.nil_append]
      rw [psb_esc f 98 8 _ (Or.inr (Or.inr (Or.inl ⟨rfl, rfl⟩))), ihf]
      rfl
    by_cases h4 : c = 9
    · subst h4
      rw [show escPoint 9 = [92, 116] from rfl]
      simp only [List.cons_append, List.nil_append]
      rw [psb_esc f 116 9 _ (Or.inr (Or.inr (Or.inr (Or.inl ⟨rfl, rfl⟩)))), ihf]
      rfl
    by_cases h5 : c = 10
    · subst h5
      rw [show escPoint 10 = [92, 110] from rfl]
      simp only [List.cons_append, List.nil_append]
      rw [psb_esc f 110 10 _ (Or.inr (Or.inr (Or.inr (Or.inr (Or.inl ⟨rfl, rfl⟩))))), ihf]
      rfl
    by_cases h6 : c = 12
    · subst h6
      rw [show escPoint 12 = [92, 102] from rfl]
      simp only [List.cons_append, List.nil_append]
      rw [psb_esc f 102 12 _
        (Or.inr (Or.inr (Or.inr (Or.inr (Or.inr (Or.inl ⟨rfl, rfl⟩)))))), ihf]
      rfl
    by_cases h7 : c = 13
    · subst h7
      rw [show escPoint 13 = [92, 114] from rfl]
      simp only [List.cons_append, List.nil_append]
      rw [psb_esc f 114 13 _
        (Or.inr (Or.inr (Or.inr (Or.inr (Or.inr (Or.inr ⟨rfl, rfl⟩)))))), ihf]
      rfl
    by_cases h8 : c < 32
    · rw [escPoint, if_neg h1, if_neg h2, if_neg h3, if_neg h4, if_neg h5,
        if_neg h6, if_neg h7, if_pos h8]
      simp only [List.cons_append]
      rw [psb_uHead, psb_u f c (by omega) (by omega) _, ihf]
      rfl
    by_cases h9 : c ≤ 126
    · rw [escPoint, if_neg h1, if_neg h2, if_neg h3, if_neg h4, if_neg h5,
        if_neg h6, if_neg h7, if_neg h8, if_pos h9]
      simp only [List.cons_append, List.nil_append]
      rw [psb_plain f c _ h1 h2 h8, ihf]
      rfl
    by_cases h10 : c < 65536
    · have hns : ¬(55296 ≤ c ∧ c ≤ 56319) := by
        rcases hc with hlo | ⟨hhi, _⟩ <;> omega
      rw [escPoint, if_neg h1, if_neg h2, if_neg h3, if_neg h4, if_neg h5,
        if_neg h6, if_neg h7, if_neg h8, if_neg h9, if_pos h10]
      simp only [List.cons_append]
      rw [psb_uHead, psb_u f c h10 hns _, ihf]
      rfl
    · have hcc : 65536 ≤ c ∧ c < 1114112 := by
        rcases hc with hlo | ⟨_, hub⟩ <;> omega
      rw [escPoint, if_neg h1, if_neg h2, if_neg h3, if_neg h4, if_neg h5,
        if_neg h6, if_neg h7, if_neg h8, if_neg h9, if_neg h10]
      simp only [List.cons_append, List.append_assoc]
      rw [psb_uHead, psb_pair f c hcc.1 hcc.2 _, ihf]
      rfl

/-! ### Size measure and well-formedness of Python values -/

mutual

/-- Fuel measure: an upper bound on the reader fuel needed for a value. -/
def msize : PyVal → Nat
  | .null => 1
  | .bool _ => 1
  | .int _ => 1
  | .str s => s.length + 2
  | .list xs => 1 + msizeL xs
  | .dict kvs => 1 + msizeD kvs

/-- Fuel measure for array elements. -/
def msizeL : List PyVal → Nat
  | [] => 0
  | x :: t => msize x + 1 + msizeL t

/-- Fuel measure for object entries. -/
def msizeD : List (List Nat × PyVal) → Nat
  | [] => 0
  | (k, v) :: t => k.length + 2 + msize v + msizeD t

end

/-- All points of the string are Unicode scalar values. -/
def wfStr (s : List Nat) : Bool := s.all fun c => decide (scalarPoint c)

mutual

/-- Well-formedness: every string of the value consists of scalar points. -/
def wfb : PyVal → Bool
  | .null => true
  | .bool _ => true
  | .int _ => true
  | .str s => wfStr s
  | .list xs => wfbL xs
  | .dict kvs => wfbD kvs

/-- Well-formedness of array elements. -/
def wfbL : List PyVal → Bool
  | [] => true
  | x :: t => wfb x && wfbL t

/-- Well-formedness of object entries (keys included). -/
def wfbD : List (List Nat × PyVal) → Bool
  | [] => true
  | (k, v) :: t => wfStr k && wfb v && wfbD t

end

theorem wfStr_scalar (s : List Nat) (h : wfStr s = true) : ∀ c ∈ s, scalarPoint c := by
  intro c hc
  have := List.all_eq_true.mp h c hc
  exact of_decide_eq_true this

theorem msize_pos (v : PyVal) : 1 ≤ msize v := by
  cases v <;> simp [msize]

/-! ### Head shapes of serialized values -/

theorem intLit_shape (i : Int) :
    ∃ c t, intLit i = c :: t ∧ (c = 45 ∨ (48 ≤ c ∧ c ≤ 57)) := by
  by_cases hneg : i < 0
  · exact ⟨45, natDigits (-i).toNat, by rw [intLit, if_pos hneg], Or.inl rfl⟩
  · rw [intLit, if_neg hneg]
    obtain ⟨c, t, hshape⟩ : ∃ c t, natDigits i.toNat = c :: t := by
      cases hd : natDigits i.toNat with
      | nil => exact absurd hd (natDigits_ne_nil _)
      | cons c t => exact ⟨c, t, rfl⟩
    refine ⟨c, t, hshape, Or.inr ?_⟩
    have := natDigits_digits i.toNat c (by rw [hshape]; exact List.mem_cons_self c t)
    exact this

/-- The first character emitted for any value: never whitespace, never a
closing bracket or brace, and never a comma or colon. -/
theorem dumps_shape (v : PyVal) :
    ∃ c t, dumps v = c :: t ∧ ¬(c = 32 ∨ c = 9 ∨ c = 10 ∨ c = 13) ∧
      ¬c = 93 ∧ ¬c = 125 ∧ ¬c = 44 ∧ ¬c = 58 := by
  cases v with
  | null => exact ⟨110, _, rfl, by omega, by omega, by omega, by omega, by omega⟩
  | bool b =>
    cases b
    · exact ⟨102, _, rfl, by omega, by omega, by omega, by omega, by omega⟩
    · exact ⟨116, _, rfl, by omega, by omega, by omega, by omega, by omega⟩
  | int i =>
    obtain ⟨c, t, hsh, hcd⟩ := intLit_shape i
    exact ⟨c, t, hsh, by omega, by omega, by omega, by omega, by omega⟩
  | str s => exact ⟨34, _, rfl, by omega, by omega, by omega, by omega, by omega⟩
  | list xs => exact ⟨91, _, rfl, by omega, by omega, by omega, by omega, by omega⟩
  | dict kvs => exact ⟨123, _, rfl, by omega, by omega, by omega, by omega, by omega⟩

theorem skipWs_dumps (v : PyVal) (X : List Nat) :
    skipWs (dumps v ++ X) = dumps v ++ X := by
  obtain ⟨c, t, hsh, hws, _⟩ := dumps_shape v
  rw [hsh, List.cons_append, skipWs_not c _ hws]

theorem dumpsElems_cons_shape (x : PyVal) (t : List PyVal) :
    ∃ c T, dumpsElems (x :: t) = c :: T ∧ ¬(c = 32 ∨ c = 9 ∨ c = 10 ∨ c = 13) ∧
      ¬c = 93 ∧ ¬c = 125 := by
  obtain ⟨c, T, hsh, hws, h93, h125, _, _⟩ := dumps_shape x
  cases t with
  | nil => exact ⟨c, T, by rw [show dumpsElems [x] = dumps x from rfl, hsh], hws, h93, h125⟩
  | cons y t' =>
    refine ⟨c, T ++ (44 :: 32 :: dumpsElems (y :: t')), ?_, hws, h93, h125⟩
    rw [show dumpsElems (x :: y :: t') = dumps x ++ (44 :: 32 :: dumpsElems (y :: t')) from rfl,
      hsh, List.cons_append]

theorem dumpsEntries_cons_shape (k : List Nat) (v : PyVal) (t : List (List Nat × PyVal)) :
    ∃ T, dumpsEntries ((k, v) :: t) = 34 :: T := by
  cases t with
  | nil => exact ⟨_, rfl⟩
  | cons e t' => exact ⟨_, rfl⟩

/-- The guard needed before the tail input of a serialized value: after an
integer literal the next character must not be a digit. -/
def numGuard : PyVal → List Nat → Prop
  | .int _, rest => headNotDigit rest
  | .null, _ => True
  | .bool _, _ => True
  | .str _, _ => True
  | .list _, _ => True
  | .dict _, _ => True

theorem numGuard_of (v : PyVal) (c : Nat) (rest : List Nat) (h : ¬(48 ≤ c ∧ c ≤ 57)) :
    numGuard v (c :: rest) := by
  cases v <;> first | exact trivial | exact h

/-! ### One-step reader lemmas -/

theorem pv_null (f : Nat) (rest : List Nat) :
    parseVal (f + 1) (110 :: 117 :: 108 :: 108 :: rest) = some (.null, rest) := by
  simp [parseVal]

theorem pv_true (f : Nat) (rest : List Nat) :
    parseVal (f + 1) (116 :: 114 :: 117 :: 101 :: rest) = some (.bool true, rest) := by
  simp [parseVal]

theorem pv_false (f : Nat) (rest : List Nat) :
    parseVal (f + 1) (102 :: 97 :: 108 :: 115 :: 101 :: rest) = some (.bool false, rest) := by
  simp [parseVal]

theorem pv_str (f : Nat) (T : List Nat) :
    parseVal (f + 1) (34 :: T) = (parseStrBody f T).map (fun r => (.str r.1, r.2)) := by
  simp [parseVal]

theorem pv_num (f c : Nat) (t : List Nat) (h : c = 45 ∨ (48 ≤ c ∧ c ≤ 57)) :
    parseVal (f + 1) (c :: t) = parseNum (c :: t) := by
  have h34 : ¬c = 34 := by omega
  have h123 : ¬c = 123 := by omega
  have h91 : ¬c = 91 := by omega
  have h110 : ¬c = 110 := by omega
  have h116 : ¬c = 116 := by omega
  have h102 : ¬c = 102 := by omega
  simp [parseVal, h34, h123, h91, h110, h116, h102]

theorem pv_brace (f : Nat) (T : List Nat) (c2 : Nat) (t2 : List Nat)
    (h : skipWs T = c2 :: t2) :
    parseVal (f + 1) (123 :: T) =
      (if c2 = 125 then some (.dict [], t2)
       else (parseEntries f (c2 :: t2)).map (fun r => (.dict r.1, r.2))) := by
  simp [parseVal, h]

theorem pv_brack (f : Nat) (T : List Nat) (c2 : Nat) (t2 : List Nat)
    (h : skipWs T = c2 :: t2) :
    parseVal (f + 1) (91 :: T) =
      (if c2 = 93 then some (.list [], t2)
       else (parseElems f (c2 :: t2)).map (fun r => (.list r.1, r.2))) := by
  simp [parseVal, h]

theorem headNotDigit_of_skipWs (close : List Nat) (r2 : List Nat)
    (h : skipWs close = 125 :: r2) : headNotDigit close := by
  cases close with
  | nil => cases h
  | cons c t =>
    by_cases hws : c = 32 ∨ c = 9 ∨ c = 10 ∨ c = 13
    · show ¬(48 ≤ c ∧ c ≤ 57)
      omega
    · rw [skipWs_not c t hws] at h
      cases h
      show ¬(48 ≤ (125 : Nat) ∧ (125 : Nat) ≤ 57)
      omega

theorem numGuard_of_skipWs (v : PyVal) (close r2 : List Nat)
    (h : skipWs close = 125 :: r2) : numGuard v close := by
  cases close with
  | nil => simp [skipWs] at h
  | cons cc tt => exact numGuard_of v cc tt (headNotDigit_of_skipWs (cc :: tt) r2 h)

theorem prettyEntries_cons_shape (ni ind : Nat) (k : List Nat) (v : PyVal)
    (t : List (List Nat × PyVal)) :
    ∃ Q, prettyEntries ni ind ((k, v) :: t) = spaces ni ++ (34 :: Q) := by
  cases t with
  | nil => exact ⟨_, rfl⟩
  | cons e t' => exact ⟨_, rfl⟩

theorem jsonDumpFlat_shape (cur ind : Nat) (v : PyVal) :
    ∃ c T, jsonDumpFlat cur ind v = c :: T ∧ ¬(c = 32 ∨ c = 9 ∨ c = 10 ∨ c = 13) := by
  cases v with
  | dict kvs =>
    cases kvs with
    | nil => exact ⟨123, _, rfl, by omega⟩
    | cons kv t =>
      obtain ⟨k0, w0⟩ := kv
      by_cases hat : hasAtime ((k0, w0) :: t) = false
      · exact ⟨123, _, by rw [show jsonDumpFlat cur ind (.dict ((k0, w0) :: t)) =
          if hasAtime ((k0, w0) :: t) = false then
            123 :: 10 :: (prettyEntries (cur + ind) ind ((k0, w0) :: t) ++
              (10 :: (spaces cur ++ [125])))
          else dumps (.dict ((k0, w0) :: t)) from rfl, if_pos hat], by omega⟩
      · refine ⟨123, dumpsEntries ((k0, w0) :: t) ++ [125], ?_, by omega⟩
        rw [show jsonDumpFlat cur ind (.dict ((k0, w0) :: t)) =
          if hasAtime ((k0, w0) :: t) = false then
            123 :: 10 :: (prettyEntries (cur + ind) ind ((k0, w0) :: t) ++
              (10 :: (spaces cur ++ [125])))
          else dumps (.dict ((k0, w0) :: t)) from rfl, if_neg hat]
        rfl
  | null => exact ⟨110, _, rfl, by omega⟩
  | bool b =>
    cases b
    · exact ⟨102, _, rfl, by omega⟩
    · exact ⟨116, _, rfl, by omega⟩
  | int i =>
    obtain ⟨c, t, hsh, hcd⟩ := intLit_shape i
    exact ⟨c, t, hsh, by omega⟩
  | str s => exact ⟨34, _, rfl, by omega⟩
  | list xs => exact ⟨91, _, rfl, by omega⟩

theorem skipWs_flat (cur ind : Nat) (v : PyVal) (X : List Nat) :
    skipWs (jsonDumpFlat cur ind v ++ X) = jsonDumpFlat cur ind v ++ X := by
  obtain ⟨c, T, hsh, hws⟩ := jsonDumpFlat_shape cur ind v
  rw [hsh, List.cons_append, skipWs_not c _ hws]

/-! ### The round trip: reading back what either writer produced -/

theorem parse_round : ∀ N : Nat,
    (∀ v : PyVal, msize v ≤ N → wfb v = true → ∀ fuel, msize v ≤ fuel → ∀ rest,
      numGuard v rest → parseVal fuel (dumps v ++ rest) = some (v, rest)) ∧
    (∀ v : PyVal, msize v ≤ N → wfb v = true → ∀ fuel, msize v ≤ fuel →
      ∀ cur ind rest, numGuard v rest →
        parseVal fuel (jsonDumpFlat cur ind v ++ rest) = some (v, rest)) := by
  intro N
  induction N using Nat.strong_induction_on with
  | _ N ih =>
    have Hd : ∀ v : PyVal, msize v ≤ N → wfb v = true → ∀ fuel, msize v ≤ fuel → ∀ rest,
        numGuard v rest → parseVal fuel (dumps v ++ rest) = some (v, rest) := by
      intro v hN hwf fuel hfuel rest hguard
      obtain ⟨f, rfl⟩ : ∃ f, fuel = f + 1 := ⟨fuel - 1, by have := msize_pos v; omega⟩
      cases v with
      | null => exact pv_null f rest
      | bool b =>
        cases b
        · exact pv_false f rest
        · exact pv_true f rest
      | int i =>
        obtain ⟨c, t2, hsh, hcd⟩ := intLit_shape i
        have step1 : parseVal (f + 1) (dumps (.int i) ++ rest) = parseNum (intLit i ++ rest) := by
          rw [show dumps (.int i) = intLit i from rfl, hsh, List.cons_append,
            pv_num f c _ hcd, ← List.cons_append, ← hsh]
        rw [step1]
        exact parseNum_intLit i rest hguard
      | str s =>
        have hscal := wfStr_scalar s hwf
        rw [show dumps (.str s) = 34 :: (escStr s ++ [34]) from rfl, List.cons_append,
          List.append_assoc, show ([34] : List Nat) ++ rest = 34 :: rest from rfl,
          pv_str f _, parseStrBody_escStr s hscal f
            (by simp only [msize] at hfuel; omega) rest]
        rfl
      | list xs =>
        cases xs with
        | nil =>
          rw [show dumps (.list []) ++ rest = 91 :: 93 :: rest from rfl,
            pv_brack f _ 93 rest (skipWs_not 93 _ (by omega)), if_pos rfl]
        | cons x t =>
          have hms : msizeL (x :: t) ≤ f := by simp only [msize] at hfuel; omega
          have hmsN : msizeL (x :: t) ≤ N - 1 := by
            simp only [msize] at hN
            omega
          have helems : ∀ (ys : List PyVal), ys ≠ [] → wfbL ys = true → msizeL ys ≤ N - 1 →
              ∀ g, msizeL ys ≤ g → ∀ r2,
                parseElems g (dumpsElems ys ++ (93 :: r2)) = some (ys, r2) := by
            intro ys
            induction ys with
            | nil => intro h; exact absurd rfl h
            | cons z zs ihz =>
              intro _ hwfz hszN g hg r2
              obtain ⟨g', rfl⟩ : ∃ g', g = g' + 1 :=
                ⟨g - 1, by have := msize_pos z; simp only [msizeL] at hg; omega⟩
              have hwz : wfb z = true ∧ wfbL zs = true := by
                have : (wfb z && wfbL zs) = true := hwfz
                simpa using this
              have hz := (ih (msize z)
                  (by simp only [msizeL] at hszN; have := msize_pos z; omega)).1 z
                (le_refl _) hwz.1 g' (by simp only [msizeL] at hg; omega)
              cases zs with
              | nil =>
                rw [show dumpsElems [z] = dumps z from rfl]
                have hz93 := hz (93 :: r2) (numGuard_of z 93 r2 (by omega))
                simp [parseElems, hz93, skipWs_not 93 r2 (by omega)]
              | cons w ws =>
                rw [show dumpsElems (z :: w :: ws) =
                  dumps z ++ (44 :: 32 :: dumpsElems (w :: ws)) from rfl, List.append_assoc]
                simp only [List.cons_append]
                have hz44 := hz (44 :: 32 :: (dumpsElems (w :: ws) ++ (93 :: r2)))
                  (numGuard_of z 44 _ (by omega))
                obtain ⟨ce, Te, hshE, hwsE, _, _⟩ := dumpsElems_cons_shape w ws
                have hskip : skipWs (dumpsElems (w :: ws) ++ (93 :: r2)) =
                    dumpsElems (w :: ws) ++ (93 :: r2) := by
                  rw [hshE, List.cons_append, skipWs_not ce _ hwsE]
                have hrec := ihz (by simp) hwz.2
                  (by simp only [msizeL] at hszN ⊢; have := msize_pos z; omega) g'
                  (by simp only [msizeL] at hg ⊢; omega) r2
                simp [parseElems, hz44, skipWs_not 44 _ (by omega),
                  skipWs_ws 32 _ (by omega), hskip, hrec]
          obtain ⟨ce, Te, hshE, hwsE, h93e, _⟩ := dumpsElems_cons_shape x t
          rw [show dumps (.list (x :: t)) = 91 :: (dumpsElems (x :: t) ++ [93]) from rfl,
            List.cons_append, List.append_assoc,
            show ([93] : List Nat) ++ rest = 93 :: rest from rfl]
          have hskip : skipWs (dumpsElems (x :: t) ++ (93 :: rest)) =
              ce :: (Te ++ (93 :: rest)) := by
            rw [hshE, List.cons_append, skipWs_not ce _ hwsE]
          rw [pv_brack f _ ce (Te ++ (93 :: rest)) hskip, if_neg h93e]
          have hel := helems (x :: t) (by simp) hwf hmsN f hms rest
          rw [show (ce :: (Te ++ (93 :: rest))) = dumpsElems (x :: t) ++ (93 :: rest) from by
            rw [hshE, List.cons_append], hel]
          rfl
      | dict kvs =>
        have hentries : ∀ (es : List (List Nat × PyVal)), es ≠ [] → wfbD es = true →
            msizeD es ≤ N - 1 → ∀ g, msizeD es ≤ g → ∀ r2,
              parseEntries g (dumpsEntries es ++ (125 :: r2)) = some (es, r2) := by
          intro es
          induction es with
          | nil => intro h; exact absurd rfl h
          | cons e2 es2 ihe =>
            obtain ⟨k2, v2⟩ := e2
            intro _ hwfe hszN g hg r2
            obtain ⟨g', rfl⟩ : ∃ g', g = g' + 1 :=
              ⟨g - 1, by have := msize_pos v2; simp only [msizeD] at hg; omega⟩
            have hw3 : wfStr k2 = true ∧ wfb v2 = true ∧ wfbD es2 = true := by
              have : (wfStr k2 && wfb v2 && wfbD es2) = true := hwfe
              simp at this
              tauto
            have hkey := parseStrBody_escStr k2 (wfStr_scalar k2 hw3.1) g'
              (by simp only [msizeD] at hg; omega)
            have hv := (ih (msize v2)
                (by simp only [msizeD] at hszN; have := msize_pos v2; omega)).1 v2
              (le_refl _) hw3.2.1 g' (by simp only [msizeD] at hg; omega)
            cases es2 with
            | nil =>
              rw [show dumpsEntries [(k2, v2)] =
                34 :: (escStr k2 ++ (34 :: 58 :: 32 :: dumps v2)) from rfl]
              simp only [List.cons_append, List.append_assoc]
              have hkey' := hkey (58 :: 32 :: (dumps v2 ++ (125 :: r2)))
              have hv' := hv (125 :: r2) (numGuard_of v2 125 r2 (by omega))
              simp [parseEntries, hkey', skipWs_not 58 _ (by omega),
                skipWs_ws 32 _ (by omega), skipWs_dumps v2 _, hv',
                skipWs_not 125 _ (by omega)]
            | cons e3 es3 =>
              obtain ⟨k3, v3⟩ := e3
              rw [show dumpsEntries ((k2, v2) :: (k3, v3) :: es3) =
                34 :: (escStr k2 ++ (34 :: 58 :: 32 :: (dumps v2 ++
                  (44 :: 32 :: dumpsEntries ((k3, v3) :: es3))))) from rfl]
              simp only [List.cons_append, List.append_assoc]
              have hkey' := hkey (58 :: 32 :: (dumps v2 ++
                (44 :: 32 :: (dumpsEntries ((k3, v3) :: es3) ++ (125 :: r2)))))
              have hv' := hv (44 :: 32 :: (dumpsEntries ((k3, v3) :: es3) ++ (125 :: r2)))
                (numGuard_of v2 44 _ (by omega))
              obtain ⟨TE, hshE⟩ := dumpsEntries_cons_shape k3 v3 es3
              have hskip : skipWs (dumpsEntries ((k3, v3) :: es3) ++ (125 :: r2)) =
                  dumpsEntries ((k3, v3) :: es3) ++ (125 :: r2) := by
                rw [hshE, List.cons_append, skipWs_not 34 _ (by omega)]
              have hrec := ihe (by simp) hw3.2.2
                (by simp only [msizeD] at hszN ⊢; have := msize_pos v2; omega) g'
                (by simp only [msizeD] at hg ⊢; omega) r2
              simp [parseEntries, hkey', skipWs_not 58 _ (by omega),
                skipWs_ws 32 _ (by omega), skipWs_dumps v2 _, hv',
                skipWs_not 44 _ (by omega), hskip, hrec]
        cases kvs with
        | nil =>
          rw [show dumps (.dict []) ++ rest = 123 :: 125 :: rest from rfl,
            pv_brace f _ 125 rest (skipWs_not 125 _ (by omega)), if_pos rfl]
        | cons kv t =>
          obtain ⟨k, v0⟩ := kv
          have hms : msizeD ((k, v0) :: t) ≤ f := by simp only [msize] at hfuel; omega
          have hmsN : msizeD ((k, v0) :: t) ≤ N - 1 := by
            simp only [msize] at hN
            omega
          obtain ⟨TE, hshE⟩ := dumpsEntries_cons_shape k v0 t
          rw [show dumps (.dict ((k, v0) :: t)) =
            123 :: (dumpsEntries ((k, v0) :: t) ++ [125]) from rfl,
            List.cons_append, List.append_assoc,
            show ([125] : List Nat) ++ rest = 125 :: rest from rfl]
          have hskip : skipWs (dumpsEntries ((k, v0) :: t) ++ (125 :: rest)) =
              34 :: (TE ++ (125 :: rest)) := by
            rw [hshE, List.cons_append, skipWs_not 34 _ (by omega)]
          rw [pv_brace f _ 34 (TE ++ (125 :: rest)) hskip, if_neg (by omega)]
          have hen := hentries ((k, v0) :: t) (by simp) hwf hmsN f hms rest
          rw [show (34 :: (TE ++ (125 :: rest))) =
            dumpsEntries ((k, v0) :: t) ++ (125 :: rest) from by
              rw [hshE, List.cons_append], hen]
          rfl
    have Hf : ∀ v : PyVal, msize v ≤ N → wfb v = true → ∀ fuel, msize v ≤ fuel →
        ∀ cur ind rest, numGuard v rest →
          parseVal fuel (jsonDumpFlat cur ind v ++ rest) = some (v, rest) := by
      intro v hN hwf fuel hfuel cur ind rest hguard
      cases v with
      | null => exact Hd .null hN hwf fuel hfuel rest hguard
      | bool b => exact Hd (.bool b) hN hwf fuel hfuel rest hguard
      | int i => exact Hd (.int i) hN hwf fuel hfuel rest hguard
      | str s => exact Hd (.str s) hN hwf fuel hfuel rest hguard
      | list xs => exact Hd (.list xs) hN hwf fuel hfuel rest hguard
      | dict kvs =>
        cases kvs with
        | nil => exact Hd (.dict []) hN hwf fuel hfuel rest hguard
        | cons kv t =>
          by_cases hat : hasAtime (kv :: t) = false
          · obtain ⟨f, rfl⟩ : ∃ f, fuel = f + 1 :=
              ⟨fuel - 1, by have := msize_pos (.dict (kv :: t)); omega⟩
            obtain ⟨k, v0⟩ := kv
            have hms : msizeD ((k, v0) :: t) ≤ f := by simp only [msize] at hfuel; omega
            have hmsN : msizeD ((k, v0) :: t) ≤ N - 1 := by
              simp only [msize] at hN
              omega
            have hpretty : ∀ (es : List (List Nat × PyVal)), es ≠ [] → wfbD es = true →
                msizeD es ≤ N - 1 → ∀ g, msizeD es ≤ g → ∀ ni close r2,
                  skipWs close = 125 :: r2 →
                  parseEntries g (skipWs (prettyEntries ni ind es ++ close)) =
                    some (es, r2) := by
              intro es
              induction es with
              | nil => intro h; exact absurd rfl h
              | cons e2 es2 ihe =>
                obtain ⟨k2, v2⟩ := e2
                intro _ hwfe hszN g hg ni close r2 hclose
                obtain ⟨g', rfl⟩ : ∃ g', g = g' + 1 :=
                  ⟨g - 1, by have := msize_pos v2; simp only [msizeD] at hg; omega⟩
                have hw3 : wfStr k2 = true ∧ wfb v2 = true ∧ wfbD es2 = true := by
                  have : (wfStr k2 && wfb v2 && wfbD es2) = true := hwfe
                  simp at this
                  tauto
                have hkey := parseStrBody_escStr k2 (wfStr_scalar k2 hw3.1) g'
                  (by simp only [msizeD] at hg; omega)
                have hv := (ih (msize v2)
                    (by simp only [msizeD] at hszN; have := msize_pos v2; omega)).2 v2
                  (le_refl _) hw3.2.1 g' (by simp only [msizeD] at hg; omega) ni ind
                cases es2 with
                | nil =>
                  rw [show prettyEntries ni ind [(k2, v2)] =
                    spaces ni ++ (34 :: (escStr k2 ++
                      (34 :: 58 :: 32 :: jsonDumpFlat ni ind v2))) from rfl,
                    List.append_assoc, skipWs_spaces, List.cons_append,
                    skipWs_not 34 _ (by omega)]
                  simp only [List.cons_append, List.append_assoc]
                  have hkey' := hkey (58 :: 32 :: (jsonDumpFlat ni ind v2 ++ close))
                  have hv' := hv close (numGuard_of_skipWs v2 close r2 hclose)
                  simp [parseEntries, hkey', skipWs_not 58 _ (by omega),
                    skipWs_ws 32 _ (by omega), skipWs_flat ni ind v2 close, hv', hclose]
                | cons e3 es3 =>
                  obtain ⟨k3, v3⟩ := e3
                  rw [show prettyEntries ni ind ((k2, v2) :: (k3, v3) :: es3) =
                    spaces ni ++ (34 :: (escStr k2 ++ (34 :: 58 :: 32 ::
                      (jsonDumpFlat ni ind v2 ++
                        (44 :: 10 :: prettyEntries ni ind ((k3, v3) :: es3)))))) from rfl,
                    List.append_assoc, skipWs_spaces, List.cons_append,
                    skipWs_not 34 _ (by omega)]
                  simp only [List.cons_append, List.append_assoc]
                  have hkey' := hkey (58 :: 32 :: (jsonDumpFlat ni ind v2 ++
                    (44 :: 10 :: (prettyEntries ni ind ((k3, v3) :: es3) ++ close))))
                  have hv' := hv (44 :: 10 :: (prettyEntries ni ind ((k3, v3) :: es3) ++ close))
                    (numGuard_of v2 44 _ (by omega))
                  have hrec := ihe (by simp) hw3.2.2
                    (by simp only [msizeD] at hszN ⊢; have := msize_pos v2; omega) g'
                    (by simp only [msizeD] at hg ⊢; omega) ni close r2 hclose
                  simp [parseEntries, hkey', skipWs_not 58 _ (by omega),
                    skipWs_ws 32 _ (by omega), skipWs_flat ni ind v2 _, hv',
                    skipWs_not 44 _ (by omega), skipWs_ws 10 _ (by omega), hrec]
            rw [show jsonDumpFlat cur ind (.dict ((k, v0) :: t)) =
              if hasAtime ((k, v0) :: t) = false then
                123 :: 10 :: (prettyEntries (cur + ind) ind ((k, v0) :: t) ++
                  (10 :: (spaces cur ++ [125])))
              else dumps (.dict ((k, v0) :: t)) from rfl, if_pos hat]
            simp only [List.cons_append, List.append_assoc, List.nil_append]
            obtain ⟨Q, hQ⟩ := prettyEntries_cons_shape (cur + ind) ind k v0 t
            have hclose' : skipWs (10 :: (spaces cur ++ (125 :: rest))) = 125 :: rest := by
              rw [skipWs_ws 10 _ (by omega), skipWs_spaces, skipWs_not 125 _ (by omega)]
            have hskipT : skipWs (10 :: (prettyEntries (cur + ind) ind ((k, v0) :: t) ++
                (10 :: (spaces cur ++ (125 :: rest))))) =
                34 :: (Q ++ (10 :: (spaces cur ++ (125 :: rest)))) := by
              rw [skipWs_ws 10 _ (by omega), hQ, List.append_assoc, skipWs_spaces,
                List.cons_append, skipWs_not 34 _ (by omega)]
            rw [pv_brace f _ 34 _ hskipT, if_neg (by omega)]
            have hp := hpretty ((k, v0) :: t) (by simp) hwf hmsN f hms (cur + ind)
              (10 :: (spaces cur ++ (125 :: rest))) rest hclose'
            rw [show skipWs (prettyEntries (cur + ind) ind ((k, v0) :: t) ++
                (10 :: (spaces cur ++ (125 :: rest)))) =
                34 :: (Q ++ (10 :: (spaces cur ++ (125 :: rest)))) from by
              rw [hQ, List.append_assoc, skipWs_spaces, List.cons_append,
                skipWs_not 34 _ (by omega)]] at hp
            rw [hp]
            rfl
          · rw [show jsonDumpFlat cur ind (.dict (kv :: t)) =
              if hasAtime (kv :: t) = false then
                123 :: 10 :: (prettyEntries (cur + ind) ind (kv :: t) ++
                  (10 :: (spaces cur ++ [125])))
              else dumps (.dict (kv :: t)) from rfl, if_neg hat]
            exact Hd (.dict (kv :: t)) hN hwf fuel hfuel rest hguard
    exact ⟨Hd, Hf⟩

/-! ### Fuel bound from output length -/

theorem msize_null : msize .null = 1 := rfl

theorem msize_bool (b : Bool) : msize (.bool b) = 1 := rfl

theorem msize_int (i : Int) : msize (.int i) = 1 := rfl

theorem msize_str (s : List Nat) : msize (.str s) = s.length + 2 := rfl

theorem msize_list (xs : List PyVal) : msize (.list xs) = 1 + msizeL xs := rfl

theorem msize_dict (kvs : List (List Nat × PyVal)) : msize (.dict kvs) = 1 + msizeD kvs := rfl

theorem msizeL_nil : msizeL [] = 0 := rfl

theorem msizeL_cons (x : PyVal) (t : List PyVal) :
    msizeL (x :: t) = msize x + 1 + msizeL t := rfl

theorem msizeD_nil : msizeD [] = 0 := rfl

theorem msizeD_cons (k : List Nat) (v : PyVal) (t : List (List Nat × PyVal)) :
    msizeD ((k, v) :: t) = k.length + 2 + msize v + msizeD t := rfl

set_option maxHeartbeats 1000000 in
theorem escPoint_len (c : Nat) : 1 ≤ (escPoint c).length := by
  unfold escPoint
  split_ifs <;> simp [hex4]

theorem escStr_len (s : List Nat) : s.length ≤ (escStr s).length := by
  induction s with
  | nil => simp [escStr]
  | cons c t ih =>
    rw [escStr, List.length_append, List.length_cons]
    have := escPoint_len c
    omega

theorem intLit_len (i : Int) : 1 ≤ (intLit i).length := by
  obtain ⟨c, t, hsh, _⟩ := intLit_shape i
  rw [hsh]
  simp

theorem len_bounds : ∀ N : Nat,
    (∀ v : PyVal, msize v ≤ N → msize v ≤ (dumps v).length) ∧
    (∀ v : PyVal, msize v ≤ N → ∀ cur ind, msize v ≤ (jsonDumpFlat cur ind v).length) := by
  intro N
  induction N using Nat.strong_induction_on with
  | _ N ih =>
    have Hd : ∀ v : PyVal, msize v ≤ N → msize v ≤ (dumps v).length := by
      intro v hN
      cases v with
      | null => rw [msize_null, show dumps .null = [110, 117, 108, 108] from rfl]; simp
      | bool b =>
        cases b
        · rw [msize_bool, show dumps (.bool false) = [102, 97, 108, 115, 101] from rfl]; simp
        · rw [msize_bool, show dumps (.bool true) = [116, 114, 117, 101] from rfl]; simp
      | int i =>
        rw [msize_int, show dumps (.int i) = intLit i from rfl]
        exact intLit_len i
      | str s =>
        rw [msize_str, show dumps (.str s) = 34 :: (escStr s ++ [34]) from rfl]
        have := escStr_len s
        simp only [List.length_cons, List.length_append, List.length_singleton]
        omega
      | list xs =>
        have hlen : ∀ ys : List PyVal, msizeL ys ≤ N - 1 →
            msizeL ys ≤ (dumpsElems ys).length + 1 := by
          intro ys
          induction ys with
          | nil => intro _; simp [msizeL_nil]
          | cons z zs ihz =>
            intro hsz
            have hz := (ih (msize z)
                (by rw [msizeL_cons] at hsz; have := msize_pos z; omega)).1 z (le_refl _)
            cases zs with
            | nil =>
              rw [msizeL_cons, msizeL_nil, show dumpsElems [z] = dumps z from rfl]
              omega
            | cons w ws =>
              have hrec := ihz (by rw [msizeL_cons] at hsz; have := msize_pos z; omega)
              rw [msizeL_cons, show dumpsElems (z :: w :: ws) =
                dumps z ++ (44 :: 32 :: dumpsElems (w :: ws)) from rfl]
              simp only [List.length_append, List.length_cons]
              omega
        rw [msize_list] at hN ⊢
        rw [show dumps (.list xs) = 91 :: (dumpsElems xs ++ [93]) from rfl]
        have := hlen xs (by omega)
        simp only [List.length_cons, List.length_append, List.length_singleton]
        omega
      | dict kvs =>
        have hlen : ∀ es : List (List Nat × PyVal), msizeD es ≤ N - 1 →
            msizeD es ≤ (dumpsEntries es).length + 1 := by
          intro es
          induction es with
          | nil => intro _; simp [msizeD_nil]
          | cons e2 es2 ihe =>
            obtain ⟨k2, v2⟩ := e2
            intro hsz
            have hv := (ih (msize v2)
                (by rw [msizeD_cons] at hsz; have := msize_pos v2; omega)).1 v2 (le_refl _)
            have hk := escStr_len k2
            cases es2 with
            | nil =>
              rw [msizeD_cons, msizeD_nil, show dumpsEntries [(k2, v2)] =
                34 :: (escStr k2 ++ (34 :: 58 :: 32 :: dumps v2)) from rfl]
              simp only [List.length_cons, List.length_append]
              omega
            | cons e3 es3 =>
              obtain ⟨k3, v3⟩ := e3
              have hrec := ihe (by rw [msizeD_cons] at hsz; have := msize_pos v2; omega)
              rw [msizeD_cons, show dumpsEntries ((k2, v2) :: (k3, v3) :: es3) =
                34 :: (escStr k2 ++ (34 :: 58 :: 32 :: (dumps v2 ++
                  (44 :: 32 :: dumpsEntries ((k3, v3) :: es3))))) from rfl]
              simp only [List.length_cons, List.length_append]
              omega
        rw [msize_dict] at hN ⊢
        rw [show dumps (.dict kvs) = 123 :: (dumpsEntries kvs ++ [125]) from rfl]
        have := hlen kvs (by omega)
        simp only [List.length_cons, List.length_append, List.length_singleton]
        omega
    have Hf : ∀ v : PyVal, msize v ≤ N → ∀ cur ind,
        msize v ≤ (jsonDumpFlat cur ind v).length := by
      intro v hN cur ind
      cases v with
      | null => exact Hd .null hN
      | bool b => exact Hd (.bool b) hN
      | int i => exact Hd (.int i) hN
      | str s => exact Hd (.str s) hN
      | list xs => exact Hd (.list xs) hN
      | dict kvs =>
        cases kvs with
        | nil => exact Hd (.dict []) hN
        | cons kv t =>
          obtain ⟨k, v0⟩ := kv
          by_cases hat : hasAtime ((k, v0) :: t) = false
          · have hplen : ∀ es : List (List Nat × PyVal), msizeD es ≤ N - 1 → ∀ ni,
                msizeD es ≤ (prettyEntries ni ind es).length + 1 := by
              intro es
              induction es with
              | nil => intro _ ni; simp [msizeD_nil]
              | cons e2 es2 ihe =>
                obtain ⟨k2, v2⟩ := e2
                intro hsz ni
                have hv := (ih (msize v2)
                    (by rw [msizeD_cons] at hsz; have := msize_pos v2; omega)).2 v2
                  (le_refl _) ni ind
                have hk := escStr_len k2
                cases es2 with
                | nil =>
                  rw [msizeD_cons, msizeD_nil, show prettyEntries ni ind [(k2, v2)] =
                    spaces ni ++ (34 :: (escStr k2 ++
                      (34 :: 58 :: 32 :: jsonDumpFlat ni ind v2))) from rfl]
                  simp only [List.length_append, List.length_cons]
                  omega
                | cons e3 es3 =>
                  obtain ⟨k3, v3⟩ := e3
                  have hrec := ihe (by rw [msizeD_cons] at hsz; have := msize_pos v2; omega) ni
                  rw [msizeD_cons, show prettyEntries ni ind ((k2, v2) :: (k3, v3) :: es3) =
                    spaces ni ++ (34 :: (escStr k2 ++ (34 :: 58 :: 32 ::
                      (jsonDumpFlat ni ind v2 ++
                        (44 :: 10 :: prettyEntries ni ind ((k3, v3) :: es3)))))) from rfl]
                  simp only [List.length_append, List.length_cons]
                  omega
            rw [msize_dict] at hN ⊢
            rw [show jsonDumpFlat cur ind (.dict ((k, v0) :: t)) =
              if hasAtime ((k, v0) :: t) = false then
                123 :: 10 :: (prettyEntries (cur + ind) ind ((k, v0) :: t) ++
                  (10 :: (spaces cur ++ [125])))
              else dumps (.dict ((k, v0) :: t)) from rfl, if_pos hat]
            have := hplen ((k, v0) :: t) (by omega) (cur + ind)
            simp only [List.length_cons, List.length_append, List.length_singleton]
            omega
          · rw [show jsonDumpFlat cur ind (.dict ((k, v0) :: t)) =
              if hasAtime ((k, v0) :: t) = false then
                123 :: 10 :: (prettyEntries (cur + ind) ind ((k, v0) :: t) ++
                  (10 :: (spaces cur ++ [125])))
              else dumps (.dict ((k, v0) :: t)) from rfl, if_neg hat]
            exact Hd (.dict ((k, v0) :: t)) hN
    exact ⟨Hd, Hf⟩

/-- Reading back the file written by `dump_json` with a standard JSON
reader yields the original value, for every well-formed value. -/
theorem loads_dumpJson (v : PyVal) (hwf : wfb v = true) : loads (dumpJson v) = some v := by
  have hlen : msize v ≤ (jsonDumpFlat 0 2 v).length :=
    (len_bounds (msize v)).2 v (le_refl _) 0 2
  unfold loads dumpJson
  rw [skipWs_flat 0 2 v [10]]
  have hround := (parse_round (msize v)).2 v (le_refl _) hwf
    ((jsonDumpFlat 0 2 v ++ [10]).length + 1)
    (by simp only [List.length_append, List.length_singleton]; omega) 0 2 [10]
    (numGuard_of v 10 [] (by omega))
  rw [hround]
  simp [skipWs]

/-! ### The serialized AuditRun record -/

/-- Code points of a Python string given as a Lean string. -/
def codes (s : String) : List Nat := s.data.map Char.toNat

theorem scalar_char (c : Char) : scalarPoint c.toNat := by
  have h := c.valid
  rcases h with h | h
  · exact Or.inl h
  · exact Or.inr h

theorem wfStr_codes (s : String) : wfStr (codes s) = true := by
  apply List.all_eq_true.mpr
  intro c hc
  rcases List.mem_map.mp hc with ⟨ch, _, rfl⟩
  exact decide_eq_true (scalar_char ch)

theorem wfStr_natDigits (n : Nat) : wfStr (natDigits n) = true := by
  apply List.all_eq_true.mpr
  intro c hc
  have := natDigits_digits n c hc
  exact decide_eq_true (Or.inl (by omega))

theorem wfb_null_eq : wfb .null = true := rfl

theorem wfb_bool_eq (b : Bool) : wfb (.bool b) = true := rfl

theorem wfb_int_eq (i : Int) : wfb (.int i) = true := rfl

theorem wfb_str_eq (s : List Nat) : wfb (.str s) = wfStr s := rfl

theorem wfb_list_eq (xs : List PyVal) : wfb (.list xs) = wfbL xs := rfl

theorem wfb_dict_eq (kvs : List (List Nat × PyVal)) : wfb (.dict kvs) = wfbD kvs := rfl

theorem wfbL_nil_eq : wfbL [] = true := rfl

theorem wfbL_cons_eq (x : PyVal) (t : List PyVal) : wfbL (x :: t) = (wfb x && wfbL t) := rfl

theorem wfbD_nil_eq : wfbD [] = true := rfl

theorem wfbD_cons_eq (k : List Nat) (v : PyVal) (t : List (List Nat × PyVal)) :
    wfbD ((k, v) :: t) = (wfStr k && wfb v && wfbD t) := rfl

/-- JSON value of an optional size (`None` becomes `null`). -/
def optIntVal : Option Int → PyVal
  | none => .null
  | some n => .int n

/-- JSON value of one categorized record: the `atime`/`mtime`/`size`
pre/post pairs (source lines 344-400). -/
def nstateVal (ns : NState) : PyVal :=
  .dict [(codes "atime", .list [.int ns.atime.1, .int ns.atime.2]),
         (codes "mtime", .list [.int ns.mtime.1, .int ns.mtime.2]),
         (codes "size", .list [optIntVal ns.size.1, optIntVal ns.size.2])]

/-- JSON value of one category mapping. -/
def catVal (m : List (String × NState)) : PyVal :=
  .dict (m.map fun kv => (codes kv.1, nstateVal kv.2))

/-- JSON value of a `time_details` result: `[iso_string, nanoseconds]`. -/
def timeVal (iso : String) (t : Int) : PyVal := .list [.str (codes iso), .int t]

/-- JSON value of the `custom_results` dictionary (a flag without `=`
becomes `True`). -/
def customVal (custom : List (String × Option String)) : PyVal :=
  .dict (custom.map fun kv => (codes kv.1,
    match kv.2 with
    | some v => .str (codes v)
    | none => .bool true))

/-- The serializable root record built by `finish` (source lines 403-422)
together with the `custom` entry added by `main` (source line 628).  The
ISO strings of `time_details` are taken as inputs; `after_count` is the
sum of the four category sizes as at lines 413-415. -/
def auditRoot (hostname base cmd : String) (final_cmd : List (List String))
    (preStr refStr endStr : String) (starttime reftime endtime : Int)
    (priorCount : Nat) (c : Classification)
    (custom : List (String × Option String)) : PyVal :=
  .dict [
    (codes "hostname", .str (codes hostname)),
    (codes "base", .str (codes base)),
    (codes "cmd", .str (codes cmd)),
    (codes "final_cmd",
      .list (final_cmd.map fun c1 => .list (c1.map fun s => .str (codes s)))),
    (codes "pre_time", timeVal preStr starttime),
    (codes "ref_time", timeVal refStr reftime),
    (codes "end_time", timeVal endStr endtime),
    (codes "prior_count", .str (natDigits priorCount)),
    (codes "after_count", .str (natDigits
      (c.prereqs.length + c.intermediates.length + c.finals.length + c.unused.length))),
    (codes "db", .dict [
      (codes "prereqs", catVal c.prereqs),
      (codes "intermediates", catVal c.intermediates),
      (codes "finals", catVal c.finals),
      (codes "unused", catVal c.unused)]),
    (codes "custom", customVal custom)]

theorem wfb_optIntVal (o : Option Int) : wfb (optIntVal o) = true := by
  cases o <;> rfl

theorem wfb_nstateVal (ns : NState) : wfb (nstateVal ns) = true := by
  rw [nstateVal, wfb_dict_eq]
  simp [wfbD_cons_eq, wfbD_nil_eq, wfStr_codes, wfb_list_eq, wfbL_cons_eq, wfbL_nil_eq,
    wfb_int_eq, wfb_optIntVal]

theorem wfb_catVal (m : List (String × NState)) : wfb (catVal m) = true := by
  rw [catVal, wfb_dict_eq]
  induction m with
  | nil => rfl
  | cons kv t ih =>
    simp only [List.map_cons, wfbD_cons_eq, ih, wfStr_codes, wfb_nstateVal, Bool.and_self,
      Bool.and_true]

theorem wfb_strList (c1 : List String) : wfbL (c1.map fun s => PyVal.str (codes s)) = true := by
  induction c1 with
  | nil => rfl
  | cons s t ih =>
    simp only [List.map_cons, wfbL_cons_eq, ih, wfb_str_eq, wfStr_codes, Bool.and_self]

theorem wfb_finalCmd (fc : List (List String)) :
    wfbL (fc.map fun c1 => PyVal.list (c1.map fun s => PyVal.str (codes s))) = true := by
  induction fc with
  | nil => rfl
  | cons c1 t ih =>
    simp only [List.map_cons, wfbL_cons_eq, ih, wfb_list_eq, wfb_strList, Bool.and_self]

theorem wfb_customVal (custom : List (String × Option String)) :
    wfb (customVal custom) = true := by
  rw [customVal, wfb_dict_eq]
  induction custom with
  | nil => rfl
  | cons kv t ih =>
    cases hv : kv.2 with
    | none =>
      simp only [List.map_cons, hv, wfbD_cons_eq, ih, wfStr_codes, wfb_bool_eq,
        Bool.and_self, Bool.and_true]
    | some v =>
      simp only [List.map_cons, hv, wfbD_cons_eq, ih, wfStr_codes, wfb_str_eq,
        Bool.and_self, Bool.and_true]

theorem wfb_timeVal (iso : String) (t : Int) : wfb (timeVal iso t) = true := by
  rw [timeVal, wfb_list_eq]
  simp [wfbL_cons_eq, wfbL_nil_eq, wfb_str_eq, wfStr_codes, wfb_int_eq]

theorem wfb_auditRoot (hostname base cmd : String) (final_cmd : List (List String))
    (preStr refStr endStr : String) (starttime reftime endtime : Int)
    (priorCount : Nat) (c : Classification)
    (custom : List (String × Option String)) :
    wfb (auditRoot hostname base cmd final_cmd preStr refStr endStr
      starttime reftime endtime priorCount c custom) = true := by
  rw [auditRoot, wfb_dict_eq]
  simp only [wfbD_cons_eq, wfbD_nil_eq, wfStr_codes, wfb_str_eq, wfb_list_eq, wfb_dict_eq,
    wfb_finalCmd, wfb_timeVal, wfStr_natDigits, wfb_catVal, wfb_customVal,
    Bool.and_self, Bool.and_true, Bool.true_and]

/-- Claim C9 (confirmed): serializing the AuditRun record with the custom
writer `dump_json` and reloading the result with a standard JSON reader
reproduces the record exactly — in particular all four category mappings
(path sets and pre/post timestamp pairs) are identical. -/
theorem audit_json_roundtrip (hostname base cmd : String) (final_cmd : List (List String))
    (preStr refStr endStr : String) (starttime reftime endtime : Int)
    (priorCount : Nat) (c : Classification)
    (custom : List (String × Option String)) :
    loads (dumpJson (auditRoot hostname base cmd final_cmd preStr refStr endStr
      starttime reftime endtime priorCount c custom)) =
      some (auditRoot hostname base cmd final_cmd preStr refStr endStr
        starttime reftime endtime priorCount c custom) :=
  loads_dumpJson _ (wfb_auditRoot hostname base cmd final_cmd preStr refStr endStr
    starttime reftime endtime priorCount c custom)

end PMAudit
